import Mathlib

/-!
# Verification of the MC-VQE algorithm plugin

Shallow embedding of `src/quantum/plugins/algorithms/mc-vqe/mc-vqe.cpp`
(class `xacc::algorithm::MC_VQE`).  `double` values are modelled as `ℚ`;
the transcendental operations the code delegates to the standard library
(`std::sqrt`, `std::acos`, Eigen's `.norm()`) are abstracted as function
parameters, so every definition stays computable and every theorem can be
evaluated on concrete inputs.  Fallible operations (out-of-range Eigen
accesses, which are undefined behaviour in the source) are modelled with
`Option`.
-/

/-! ## Vectors of three rationals (Eigen 3-vectors: positions and dipoles) -/

/-- A 3-vector of rationals, standing in for a row of an Eigen `MatrixXd`
with three columns (a position or dipole-moment vector). -/
def Vec3 : Type := ℚ × ℚ × ℚ

/-- Componentwise addition of 3-vectors. -/
def addV (a b : Vec3) : Vec3 := (a.1 + b.1, a.2.1 + b.2.1, a.2.2 + b.2.2)

/-- Componentwise subtraction of 3-vectors. -/
def subV (a b : Vec3) : Vec3 := (a.1 - b.1, a.2.1 - b.2.1, a.2.2 - b.2.2)

/-- Negation of a 3-vector. -/
def negV (a : Vec3) : Vec3 := (-a.1, -a.2.1, -a.2.2)

/-- Scalar multiple of a 3-vector. -/
def smulV (c : ℚ) (a : Vec3) : Vec3 := (c * a.1, c * a.2.1, c * a.2.2)

/-- Dot product of 3-vectors (Eigen `.dot`). -/
def dotV (a b : Vec3) : ℚ := a.1 * b.1 + a.2.1 * b.2.1 + a.2.2 * b.2.2

/-- The zero 3-vector. -/
def zeroV : Vec3 := (0, 0, 0)

/-- A concrete norm function usable in witnesses: the L1 norm.  It is an
even function vanishing exactly at the zero vector, which is all the
abstract-norm hypotheses of the theorems below require. -/
def l1normV (a : Vec3) : ℚ := |a.1| + |a.2.1| + |a.2.2|

/-! ## Pointwise-updated vectors and matrices

Eigen vectors/matrices that the source mutates entry by entry are modelled
as total functions `ℕ → ℚ` / `ℕ → ℕ → ℚ` together with single-cell update
operations. -/

/-- Single-entry update of a vector modelled as a function. -/
def upd1 (f : ℕ → ℚ) (k : ℕ) (v : ℚ) : ℕ → ℚ :=
  fun i => if i = k then v else f i

/-- Single-cell update of a matrix modelled as a function. -/
def upd2 (M : ℕ → ℕ → ℚ) (p : ℕ × ℕ) (v : ℚ) : ℕ → ℕ → ℚ :=
  fun i j => if i = p.1 ∧ j = p.2 then v else M i j

/-- Apply a list of single-cell writes to a matrix, left to right. -/
def applyW (M : ℕ → ℕ → ℚ) (ws : List ((ℕ × ℕ) × ℚ)) : ℕ → ℕ → ℚ :=
  ws.foldl (fun M w => upd2 M w.1 w.2) M

/-- Sum of `f 0 + ... + f (n-1)` (Eigen `.sum()` on a length-`n` vector). -/
def sumR (f : ℕ → ℚ) (n : ℕ) : ℚ := ((List.range n).map f).sum

/-- Sum of all entries of an `n × n` matrix (Eigen `.sum()`). -/
def sumR2 (f : ℕ → ℕ → ℚ) (n : ℕ) : ℚ := ((List.range n).map (fun A => sumR (f A) n)).sum

/-! ## Circuit instructions

`mc-vqe.cpp` builds circuits through an `IRProvider`; the only gates it
creates are `Ry` (with either a concrete angle or a named variable), `H`
and `CNOT`. -/

/-- A gate parameter: a concrete rotation angle or a named circuit
variable (`InstructionParameter`). -/
inductive GateParam where
  | val (v : ℚ)
  | var (s : String)
deriving DecidableEq, Repr

/-- One circuit instruction, as created by `provider->createInstruction`. -/
inductive Inst where
  | ry (q : ℕ) (p : GateParam)
  | h (q : ℕ)
  | cnot (control target : ℕ)
deriving DecidableEq, Repr

/-- Variable name `x<k>` used by the entangler (`paramLetter = "x"`). -/
def pName (k : ℕ) : String := "x" ++ toString k

/-! ## `MC_VQE::statePreparationCircuit`

Source lines 519-576: an `Ry` "pump" on qubit 0, then for `i = 1 ..
nChromophores-1` the block `Ry(-angles(i)/2); H; CNOT(i-1,i); H;
Ry(angles(i)/2)` on qubit `i`, then the wall of CNOTs with both loops
running in decreasing index order. -/

/-- The instruction list of the CIS state-preparation circuit.  `angles i`
models `angles(i)` of the Eigen vector argument. -/
def statePreparationInsts (n : ℕ) (angles : ℕ → ℚ) : List Inst :=
  [Inst.ry 0 (GateParam.val (angles 0))]
    ++ (List.range' 1 (n - 1)).flatMap (fun i =>
        [Inst.ry i (GateParam.val (-angles i / 2)),
         Inst.h i,
         Inst.cnot (i - 1) i,
         Inst.h i,
         Inst.ry i (GateParam.val (angles i / 2))])
    ++ ((List.range (n - 1)).reverse.flatMap (fun i =>
        ((List.range' (i + 1) (n - 1 - i)).reverse.map (fun j => Inst.cnot j i))))

/-! ## `MC_VQE::entanglerCircuit`

Source lines 578-672.  The per-block parameter count `NPARAMSENTANGLER`
is declared in `mc-vqe.hpp`, which is not part of the sources. -/

/-- Modelled from the spec: `NPARAMSENTANGLER`, the number of trainable
parameters contributed by one entangling block, is declared in the missing
header `mc-vqe.hpp`; §4.3 of the spec fixes it: "each block contributing
exactly 4 trainable parameters". -/
def NPARAMSENTANGLER : ℕ := 4

/-- The `entanglerGate` lambda (source lines 595-639): interleaved CNOTs
and variable-parameterized `Ry` rotations; returns the instructions and
the variables it registers, in source order. -/
def entanglerGateW (paramCounter control target : ℕ) : List Inst × List String :=
  ([Inst.cnot control target,
    Inst.ry control (GateParam.var (pName paramCounter)),
    Inst.ry target (GateParam.var (pName (paramCounter + 1))),
    Inst.cnot control target,
    Inst.ry control (GateParam.var (pName (paramCounter + 2))),
    Inst.ry target (GateParam.var (pName (paramCounter + 3)))],
   [pName paramCounter, pName (paramCounter + 1),
    pName (paramCounter + 2), pName (paramCounter + 3)])

/-- Starting indices `i` of the entangling blocks placed by
`for (int layer : {0, 1}) for (int i = layer; i < nChromophores - layer; i += 2)`:
for layer `l` the indices are `l, l+2, ...` strictly below `n - l`. -/
def entLayerStarts (n : ℕ) : List ℕ :=
  List.range' 0 ((n + 1) / 2) 2 ++ List.range' 1 ((n - 1) / 2) 2

/-- The entangler circuit: instruction list and registered variable list
(`CompositeInstruction::addVariable` calls), in source order.  The
accumulator's third component is `paramCounter`. -/
def entanglerCircuitM (n : ℕ) (cyclic : Bool) : List Inst × List String :=
  let firstInsts := (List.range n).map (fun i => Inst.ry i (GateParam.var (pName i)))
  let firstVars := (List.range n).map pName
  let afterLayers := (entLayerStarts n).foldl
    (fun (acc : List Inst × List String × ℕ) i =>
      let g := entanglerGateW acc.2.2 i (i + 1)
      (acc.1 ++ g.1, acc.2.1 ++ g.2, acc.2.2 + NPARAMSENTANGLER))
    (firstInsts, firstVars, n)
  if cyclic then
    let g := entanglerGateW afterLayers.2.2 (n - 1) 0
    (afterLayers.1 ++ g.1, afterLayers.2.1 ++ g.2)
  else
    (afterLayers.1, afterLayers.2.1)

/-! ## The `MC_VQE` object

The fields of the `MC_VQE` class that the circuit builders could read.
Both builders are `const` member functions; modelling them over the whole
object lets us state that their output depends only on the documented
inputs. -/

/-- The data members of the `MC_VQE` class relevant to circuit
construction (plus assorted other members, to express independence). -/
structure MCVQE where
  nChromophores : ℕ
  nStates : ℕ
  isCyclic : Bool
  logLevel : ℤ
  tnqvmLog : Bool
  dataPath : String

/-- `MC_VQE::statePreparationCircuit` as a member function: reads only
`nChromophores` besides its `angles` argument. -/
def MCVQE.statePrepCircuit (st : MCVQE) (angles : ℕ → ℚ) : List Inst :=
  statePreparationInsts st.nChromophores angles

/-- `MC_VQE::entanglerCircuit` as a member function: reads only
`nChromophores` and `isCyclic`. -/
def MCVQE.entangler (st : MCVQE) : List Inst × List String :=
  entanglerCircuitM st.nChromophores st.isCyclic

/-! ## Neighbor pairs (`MC_VQE::preProcessing`, source lines 782-791)

```
for (int A = 0; A < nChromophores; A++) {
  if (A == 0 && isCyclic)              pairs[A] = {A + 1, nChromophores - 1};
  else if (A == nChromophores - 1)     pairs[A] = {A - 1, 0};
  else                                 pairs[A] = {A - 1, A + 1};
}
```
The entries are C++ `int`s, hence `ℤ` here: for `A = 0` in the final
branch the first entry is `-1`. -/

/-- The neighbor list `pairs[A]`. -/
def pairsOf (n : ℕ) (cyclic : Bool) (A : ℕ) : List ℤ :=
  if A = 0 ∧ cyclic then [(A : ℤ) + 1, (n : ℤ) - 1]
  else if A = n - 1 then [(A : ℤ) - 1, 0]
  else [(A : ℤ) - 1, (A : ℤ) + 1]

/-! ## The averaged-energy objective's cross-call state
(`MC_VQE::execute(buffer)`, source lines 136 and 230-234)

Each objective call produces one energy per state (`diagonal(state) =
energy`), accumulates their average, and then

```
if (averageEnergy < oldAverageEnergy) {
  oldAverageEnergy = averageEnergy;
  entangledHamiltonian.diagonal() = diagonal;
}
```

with `double oldAverageEnergy = 0.0;` captured outside the closure and
`entangledHamiltonian.setZero()` initially.  A call is represented by its
list of per-state energies. -/

/-- The state shared across objective calls: the best average seen
(`oldAverageEnergy`) and the stored diagonal of `entangledHamiltonian`. -/
structure ObjState where
  oldAverageEnergy : ℚ
  diagonal : List ℚ
deriving DecidableEq, Repr

/-- Average of a call's per-state energies
(`averageEnergy /= nStates` after summing). -/
def avgE (nStates : ℕ) (es : List ℚ) : ℚ := es.sum / (nStates : ℚ)

/-- One objective call: store the per-state energies into the diagonal
exactly when they lower the best average seen so far. -/
def objectiveCall (nStates : ℕ) (es : List ℚ) (st : ObjState) : ObjState :=
  let averageEnergy := avgE nStates es
  if averageEnergy < st.oldAverageEnergy then
    { oldAverageEnergy := averageEnergy, diagonal := es }
  else st

/-- Run a sequence of objective calls from the initial state
(`oldAverageEnergy = 0.0`, zeroed diagonal). -/
def runObjective (nStates : ℕ) (calls : List (List ℚ)) : ObjState :=
  calls.foldl (fun st es => objectiveCall nStates es st)
    { oldAverageEnergy := 0, diagonal := List.replicate nStates 0 }

/-- The minimum of `0` and all call averages — the final value of
`oldAverageEnergy` (proved below). -/
def minAvg (nStates : ℕ) (calls : List (List ℚ)) : ℚ :=
  (calls.map (avgE nStates)).foldl min 0

/-! ## The gradient frame effect (`MC_VQE::execute(buffer)`, lines 146, 224-228)

```
std::vector<double> averageGrad(x.size());
for (int state = 0; state < nStates; state++) {
  if (gradientStrategy) { ... averageGrad[i] += tmpGrad[i] / nStates; }
}
if (!averageGrad.empty()) { dx = averageGrad; }
```

The gradient strategy, when present, is abstracted as a function from the
state index and `x`, `dx` to the per-state gradient (`tmpGrad` after
`gradientStrategy->compute`). -/

/-- The `averageGrad` accumulator after the per-state loop: zero-initialized
at length `x.size()` and only ever added to when a gradient strategy is
present. -/
def accumulateAvgGrad (gradStrat : Option (ℕ → List ℚ → List ℚ → List ℚ))
    (nStates : ℕ) (x dx : List ℚ) : List ℚ :=
  (List.range nStates).foldl
    (fun avg state =>
      match gradStrat with
      | some g =>
          List.zipWith (fun a t => a + t / (nStates : ℚ)) avg (g state x dx)
      | none => avg)
    (List.replicate x.length 0)

/-- The value of `dx` after one objective call, as a function of the
optional gradient strategy. -/
def objectiveGradOut (gradStrat : Option (ℕ → List ℚ → List ℚ → List ℚ))
    (nStates : ℕ) (x dx : List ℚ) : List ℚ :=
  if (accumulateAvgGrad gradStrat nStates x dx).isEmpty then dx
  else accumulateAvgGrad gradStrat nStates x dx

/-! ## Configuration / file-open error handling

`MC_VQE::initialize` (lines 28-57) checks the four required parameters and
returns `false` before `preProcessing` runs.  `MC_VQE::preProcessing`
(lines 702-706) guards the data file with

```
std::ifstream file(dataPath);
if (file.bad()) { xacc::error("Cannot access data file."); return; }
```
-/

/-- Presence flags of the required entries of the `HeterogeneousMap`
passed to `MC_VQE::initialize`. -/
structure OptionFlags where
  hasAccelerator : Bool
  hasOptimizer : Bool
  hasNChromophores : Bool
  hasDataPath : Bool

/-- The guard sequence of `MC_VQE::initialize`: `true` only when all four
required parameters are present; `preProcessing` (and any circuit work) is
reached only in that case. -/
def initRequiredChecks (p : OptionFlags) : Bool :=
  p.hasAccelerator && p.hasOptimizer && p.hasNChromophores && p.hasDataPath

/-- State of the `std::ifstream` right after construction: either the file
opened with some contents, or the open failed (missing/unreadable file). -/
inductive StreamState where
  | opened (lines : List String)
  | openFailed
deriving DecidableEq

/-- `std::basic_ios::bad()` per the C++ iostream semantics: `badbit` is
set only by an irrecoverable stream-buffer error; a failed `open` sets
`failbit`, not `badbit`, so `bad()` is `false` in both modelled states. -/
def streamBadBit : StreamState → Bool := fun _ => false

/-- What `preProcessing` does right after constructing the stream. -/
inductive PreprocOutcome where
  | fatalConfigError
  | reachedParsing
deriving DecidableEq

/-- The file guard of `MC_VQE::preProcessing`: report a fatal error iff
`file.bad()`, otherwise fall through to the `std::getline`/`std::stod`
parsing loop. -/
def preprocFileGuard (st : StreamState) : PreprocOutcome :=
  if streamBadBit st then PreprocOutcome.fatalConfigError
  else PreprocOutcome.reachedParsing

/-! ## `MC_VQE::statePreparationAngles` (source lines 903-925)

```
for (int state = 0; state < nStates; state++) {
  for (int angle = 0; angle < nChromophores; angle++) {
    double pCoeffNorm = CoefficientMatrix.col(state)
                            .segment(angle, nChromophores - angle + 1).norm();
    gateAngles(angle, state) =
        std::acos(CoefficientMatrix(angle, state) / pCoeffNorm);
  }
  if (CoefficientMatrix(Eigen::last, state) < 0.0) {
    gateAngles(nChromophores - 1, state) *= -1.0;
  }
}
```

`std::acos` and Eigen's Euclidean `.norm()` are abstracted as the function
parameters `acosF` and `vnormF`. -/

/-- `CoefficientMatrix.col(state).segment(angle, nChromophores - angle + 1)`:
the entries `C angle state, ..., C n state` of column `state`. -/
def colSegment (C : ℕ → ℕ → ℚ) (state angle n : ℕ) : List ℚ :=
  (List.range' angle (n - angle + 1)).map (fun i => C i state)

/-- The body of the outer (`state`) loop of
`MC_VQE::statePreparationAngles`: fill column `state` of `gateAngles`,
then flip the sign of its last angle when the column's last coefficient is
negative. -/
def stateAnglesBody (acosF : ℚ → ℚ) (vnormF : List ℚ → ℚ)
    (C : ℕ → ℕ → ℚ) (n nS : ℕ) (G : ℕ → ℕ → ℚ) (state : ℕ) : ℕ → ℕ → ℚ :=
  let G1 := (List.range n).foldl
    (fun G angle =>
      upd2 G (angle, state)
        (acosF (C angle state / vnormF (colSegment C state angle n)))) G
  if C (nS - 1) state < 0 then
    upd2 G1 (n - 1, state) (G1 (n - 1) state * (-1))
  else G1

/-- The angle matrix `gateAngles` (zero-initialized, indexed
(angle, state)) produced by `MC_VQE::statePreparationAngles`; `nS` is the
member `nStates`, and `Eigen::last` of a column is row `nS - 1`. -/
def statePrepAngles (acosF : ℚ → ℚ) (vnormF : List ℚ → ℚ)
    (C : ℕ → ℕ → ℚ) (n nS : ℕ) : ℕ → ℕ → ℚ :=
  (List.range nS).foldl (stateAnglesBody acosF vnormF C n nS) (fun _ _ => 0)

/-- The value the encoder leaves at cell `(k, s)` of `gateAngles` (proved
below): the arccos of the coefficient over the tail norm, negated for the
last angle of a column whose final coefficient is negative. -/
def angleVal (acosF : ℚ → ℚ) (vnormF : List ℚ → ℚ)
    (C : ℕ → ℕ → ℚ) (n nS k s : ℕ) : ℚ :=
  if k = n - 1 ∧ C (nS - 1) s < 0 then
    acosF (C k s / vnormF (colSegment C s k n)) * (-1)
  else acosF (C k s / vnormF (colSegment C s k n))

/-! ## `MC_VQE::preProcessing` (source lines 674-901)

The per-site data parsed from the data file.  The unit-conversion
constants `ANGSTROM2BOHR` and `DEBYE2AU` are declared in the missing
header `mc-vqe.hpp`; they enter only as multiplicative factors and are
kept as the abstract parameters `a2b` and `d2au`.  Eigen's Euclidean
`.norm()` is the abstract parameter `normF`. -/

/-- The raw per-chromophore records (`energiesGS`, `energiesES`,
`dipoleGS`, `dipoleES`, `dipoleT`, `com`), one list entry per site. -/
structure ChromoData where
  energiesGS : List ℚ
  energiesES : List ℚ
  dipoleGS : List Vec3
  dipoleES : List Vec3
  dipoleT : List Vec3
  com : List Vec3

/-- `com *= ANGSTROM2BOHR`. -/
def comS (d : ChromoData) (a2b : ℚ) : List Vec3 := d.com.map (smulV a2b)

/-- `dipoleGS *= DEBYE2AU`. -/
def dipoleGSs (d : ChromoData) (d2au : ℚ) : List Vec3 := d.dipoleGS.map (smulV d2au)

/-- `dipoleES *= DEBYE2AU` (the transition dipole `dipoleT` is not
rescaled by the source). -/
def dipoleESs (d : ChromoData) (d2au : ℚ) : List Vec3 := d.dipoleES.map (smulV d2au)

/-- Row of an Eigen matrix at a (possibly negative) `int` index, with a
junk default; only used beneath the bounds check of `row?` and in the
pure replay of loops whose indices are proved in range. -/
def rowD (l : List Vec3) (i : ℤ) : Vec3 := l.getD i.toNat zeroV

/-- Bounds-checked row access: an out-of-range Eigen row read is
undefined behaviour in the source and is modelled as `none`. -/
def row? (l : List Vec3) (i : ℤ) : Option Vec3 :=
  if 0 ≤ i ∧ i < (l.length : ℤ) then some (rowD l i) else none

/-- `dipoleSum.row(i)` where `dipoleSum = (dipoleGS + dipoleES) / 2`. -/
def dipoleSumRow? (d : ChromoData) (d2au : ℚ) (i : ℤ) : Option Vec3 := do
  let g ← row? (dipoleGSs d d2au) i
  let e ← row? (dipoleESs d d2au) i
  pure (smulV (1 / 2) (addV g e))

/-- `dipoleDiff.row(i)` where `dipoleDiff = (dipoleGS - dipoleES) / 2`. -/
def dipoleDiffRow? (d : ChromoData) (d2au : ℚ) (i : ℤ) : Option Vec3 := do
  let g ← row? (dipoleGSs d d2au) i
  let e ← row? (dipoleESs d d2au) i
  pure (smulV (1 / 2) (subV g e))

/-- `dipoleT.row(i)`. -/
def dipoleTRow? (d : ChromoData) (i : ℤ) : Option Vec3 := row? d.dipoleT i

/-- `com.row(i)` (after unit scaling). -/
def comRow? (d : ChromoData) (a2b : ℚ) (i : ℤ) : Option Vec3 := row? (comS d a2b) i

/-- `D_A = (energiesGS - energiesES) / 2`, the initial value of `Z_A`. -/
def dValue (d : ChromoData) (A : ℕ) : ℚ :=
  (d.energiesGS.getD A 0 - d.energiesES.getD A 0) / 2

/-- The `twoBodyH` lambda (source lines 763-775): the point-dipole
interaction `(μ_A·μ_B - 3(μ_A·n̂)(μ_B·n̂)) / d³` with `n̂ = r_AB / d` and
`d = |r_AB|` (the abstract `normF`). -/
def twoBodyH (normF : Vec3 → ℚ) (muA muB rAB : Vec3) : ℚ :=
  let d_AB := normF rAB
  let n_AB := smulV (1 / d_AB) rAB
  (dotV muA muB - 3 * dotV muA n_AB * dotV muB n_AB) / d_AB ^ 3

/-- `twoBodyH` with the IEEE-754 failure made explicit: a zero inter-site
distance makes the source divide by zero, producing NaN/Inf (modelled as
`none`).  The source contains no such check; this definition exists to
state what a detecting implementation would return. -/
def twoBodyHChecked (normF : Vec3 → ℚ) (muA muB rAB : Vec3) : Option ℚ :=
  if normF rAB = 0 then none else some (twoBodyH normF muA muB rAB)

/-- The accumulator of the Hamiltonian loop (lines 812-851): the scalar
offset `E`, the one-body vectors `Z_A`, `X_A` and the four coupling
matrices. -/
structure HamState where
  E : ℚ
  Z : ℕ → ℚ
  X : ℕ → ℚ
  XX : ℕ → ℕ → ℚ
  XZ : ℕ → ℕ → ℚ
  ZX : ℕ → ℕ → ℚ
  ZZ : ℕ → ℕ → ℚ

/-- Initial accumulator: `E = 0.0`, `Z_A = D_A`, `X_A` and all matrices
zero. -/
def hamInit (d : ChromoData) : HamState :=
  { E := 0, Z := fun A => dValue d A, X := fun _ => 0,
    XX := fun _ _ => 0, XZ := fun _ _ => 0, ZX := fun _ _ => 0, ZZ := fun _ _ => 0 }

/-- One inner-loop iteration `(A, B)` of the Hamiltonian loop: all Eigen
row reads (which fail for the out-of-range `B` produced by `pairsOf` in
the non-cyclic case), then the accumulations of lines 819-846. -/
def hamBody (normF : Vec3 → ℚ) (d : ChromoData) (a2b d2au : ℚ)
    (st : HamState) (A : ℕ) (B : ℤ) : Option HamState := do
  let dsA ← dipoleSumRow? d d2au (A : ℤ)
  let dsB ← dipoleSumRow? d d2au B
  let ddA ← dipoleDiffRow? d d2au (A : ℤ)
  let ddB ← dipoleDiffRow? d d2au B
  let dtA ← dipoleTRow? d (A : ℤ)
  let dtB ← dipoleTRow? d B
  let cA ← comRow? d a2b (A : ℤ)
  let cB ← comRow? d a2b B
  pure {
    E := st.E + 1 / 2 * twoBodyH normF dsA dsB (subV cA cB),
    X := upd1 st.X A (st.X A
          + 1 / 2 * twoBodyH normF dtA dsB (subV cA cB)
          + 1 / 2 * twoBodyH normF dsB dtA (subV cB cA)),
    Z := upd1 st.Z A (st.Z A
          + 1 / 2 * twoBodyH normF dsA ddB (subV cA cB)
          + 1 / 2 * twoBodyH normF ddB dsA (subV cB cA)),
    XX := upd2 st.XX (A, B.toNat) (twoBodyH normF dtA dtB (subV cA cB)),
    XZ := upd2 st.XZ (A, B.toNat) (twoBodyH normF dtA ddB (subV cA cB)),
    ZX := upd2 st.ZX (A, B.toNat) (twoBodyH normF ddA dtB (subV cA cB)),
    ZZ := upd2 st.ZZ (A, B.toNat) (twoBodyH normF ddA ddB (subV cA cB)) }

/-- The full Hamiltonian loop `for A { for B : pairs[A] { ... } }`. -/
def hamLoop (normF : Vec3 → ℚ) (d : ChromoData) (a2b d2au : ℚ)
    (n : ℕ) (cyclic : Bool) : Option HamState :=
  (List.range n).foldlM
    (fun st A => (pairsOf n cyclic A).foldlM
      (fun st B => hamBody normF d a2b d2au st A B) st)
    (hamInit d)

/-- Bounds-checked read of an `n × n` Eigen matrix at `int` indices. -/
def mread? (n : ℕ) (M : ℕ → ℕ → ℚ) (i j : ℤ) : Option ℚ :=
  if 0 ≤ i ∧ i < (n : ℤ) ∧ 0 ≤ j ∧ j < (n : ℤ) then some (M i.toNat j.toNat) else none

/-- Unchecked matrix read at `int` indices (pure replay). -/
def mreadD (M : ℕ → ℕ → ℚ) (i j : ℤ) : ℚ := M i.toNat j.toNat

/-- `E_ref = E + Z_A.sum() + 0.5 * ZZ_AB.sum()` (line 865). -/
def eRef (st : HamState) (n : ℕ) : ℚ := st.E + sumR st.Z n + 1 / 2 * sumR2 st.ZZ n

/-- The diagonal singles-singles loop (lines 869-874):
`CISMatrix(A+1, A+1) = E_ref - 2 Z_A(A) - Σ_B (ZZ(A,B) + ZZ(B,A))`,
accumulated with `-=` over `pairs[A]`. -/
def cisDiagLoop (n : ℕ) (cyclic : Bool) (st : HamState) (e_ref : ℚ)
    (M : ℕ → ℕ → ℚ) : Option (ℕ → ℕ → ℚ) :=
  (List.range n).foldlM
    (fun M A => do
      let v ← (pairsOf n cyclic A).foldlM
        (fun acc B => do
          let zzAB ← mread? n st.ZZ (A : ℤ) B
          let zzBA ← mread? n st.ZZ B (A : ℤ)
          pure (acc - (zzAB + zzBA)))
        (e_ref - 2 * st.Z A)
      pure (upd2 M (A + 1, A + 1) v))
    M

/-- The reference-singles loop (lines 877-883):
`CISMatrix(A+1, 0) = X_A(A) + Σ_B 0.5 (XZ(A,B) + ZX(B,A))`, then the
mirror write `CISMatrix(0, A+1) = CISMatrix(A+1, 0)`. -/
def cisMixedLoop (n : ℕ) (cyclic : Bool) (st : HamState)
    (M : ℕ → ℕ → ℚ) : Option (ℕ → ℕ → ℚ) :=
  (List.range n).foldlM
    (fun M A => do
      let v ← (pairsOf n cyclic A).foldlM
        (fun acc B => do
          let xzAB ← mread? n st.XZ (A : ℤ) B
          let zxBA ← mread? n st.ZX B (A : ℤ)
          pure (acc + 1 / 2 * (xzAB + zxBA)))
        (st.X A)
      pure (upd2 (upd2 M (A + 1, 0) v) (0, A + 1) v))
    M

/-- The singles-singles off-diagonal loop (lines 886-890):
`CISMatrix(A+1, B+1) = XX_AB(A, B)` for `B` in `pairs[A]`. -/
def cisSinglesLoop (n : ℕ) (cyclic : Bool) (st : HamState)
    (M : ℕ → ℕ → ℚ) : Option (ℕ → ℕ → ℚ) :=
  (List.range n).foldlM
    (fun M A =>
      (pairsOf n cyclic A).foldlM
        (fun M B => do
          let xxAB ← mread? n st.XX (A : ℤ) B
          pure (upd2 M (A + 1, B.toNat + 1) xxAB))
        M)
    M

/-- The CIS reference matrix (`nStates × nStates`, `nStates = n + 1`,
cells outside that range keep the zero default): Hamiltonian loop, then
`CISMatrix(0,0) = E_ref`, then the three filling loops, exactly in source
order.  `none` when any Eigen access is out of range (non-cyclic
topology, claim C2). -/
def buildCIS (normF : Vec3 → ℚ) (d : ChromoData) (a2b d2au : ℚ)
    (n : ℕ) (cyclic : Bool) : Option (ℕ → ℕ → ℚ) := do
  let st ← hamLoop normF d a2b d2au n cyclic
  let M1 := upd2 (fun _ _ => 0) (0, 0) (eRef st n)
  let M2 ← cisDiagLoop n cyclic st (eRef st n) M1
  let M3 ← cisMixedLoop n cyclic st M2
  cisSinglesLoop n cyclic st M3

/-! ### Pure replay of the preprocessing loops

Used to characterize the successful (all accesses in range) runs of the
`Option`-valued definitions above. -/

/-- Pure `dipoleSum.row(i)`. -/
def dipoleSumRowD (d : ChromoData) (d2au : ℚ) (i : ℤ) : Vec3 :=
  smulV (1 / 2) (addV (rowD (dipoleGSs d d2au) i) (rowD (dipoleESs d d2au) i))

/-- Pure `dipoleDiff.row(i)`. -/
def dipoleDiffRowD (d : ChromoData) (d2au : ℚ) (i : ℤ) : Vec3 :=
  smulV (1 / 2) (subV (rowD (dipoleGSs d d2au) i) (rowD (dipoleESs d d2au) i))

/-- Pure `dipoleT.row(i)`. -/
def dipoleTRowD (d : ChromoData) (i : ℤ) : Vec3 := rowD d.dipoleT i

/-- Pure `com.row(i)`. -/
def comRowD (d : ChromoData) (a2b : ℚ) (i : ℤ) : Vec3 := rowD (comS d a2b) i

/-- The coefficient `XX_AB(A, B) = twoBodyH(dipoleT.row(A),
dipoleT.row(B), com.row(A) - com.row(B))`. -/
def xxVal (normF : Vec3 → ℚ) (d : ChromoData) (a2b : ℚ) (A B : ℤ) : ℚ :=
  twoBodyH normF (dipoleTRowD d A) (dipoleTRowD d B)
    (subV (comRowD d a2b A) (comRowD d a2b B))

/-- Pure replay of `hamBody` (identical accumulations, unchecked reads). -/
def hamBodyP (normF : Vec3 → ℚ) (d : ChromoData) (a2b d2au : ℚ)
    (st : HamState) (A : ℕ) (B : ℤ) : HamState :=
  let dsA := dipoleSumRowD d d2au (A : ℤ)
  let dsB := dipoleSumRowD d d2au B
  let ddA := dipoleDiffRowD d d2au (A : ℤ)
  let ddB := dipoleDiffRowD d d2au B
  let dtA := dipoleTRowD d (A : ℤ)
  let dtB := dipoleTRowD d B
  let cA := comRowD d a2b (A : ℤ)
  let cB := comRowD d a2b B
  { E := st.E + 1 / 2 * twoBodyH normF dsA dsB (subV cA cB),
    X := upd1 st.X A (st.X A
          + 1 / 2 * twoBodyH normF dtA dsB (subV cA cB)
          + 1 / 2 * twoBodyH normF dsB dtA (subV cB cA)),
    Z := upd1 st.Z A (st.Z A
          + 1 / 2 * twoBodyH normF dsA ddB (subV cA cB)
          + 1 / 2 * twoBodyH normF ddB dsA (subV cB cA)),
    XX := upd2 st.XX (A, B.toNat) (twoBodyH normF dtA dtB (subV cA cB)),
    XZ := upd2 st.XZ (A, B.toNat) (twoBodyH normF dtA ddB (subV cA cB)),
    ZX := upd2 st.ZX (A, B.toNat) (twoBodyH normF ddA dtB (subV cA cB)),
    ZZ := upd2 st.ZZ (A, B.toNat) (twoBodyH normF ddA ddB (subV cA cB)) }

/-- Pure replay of `hamLoop`. -/
def hamLoopP (normF : Vec3 → ℚ) (d : ChromoData) (a2b d2au : ℚ)
    (n : ℕ) (cyclic : Bool) : HamState :=
  (List.range n).foldl
    (fun st A => (pairsOf n cyclic A).foldl
      (fun st B => hamBodyP normF d a2b d2au st A B) st)
    (hamInit d)

/-- Pure replay of the diagonal loop's accumulated cell value. -/
def cisDiagValP (n : ℕ) (cyclic : Bool) (st : HamState) (e_ref : ℚ) (A : ℕ) : ℚ :=
  (pairsOf n cyclic A).foldl
    (fun acc B => acc - (mreadD st.ZZ (A : ℤ) B + mreadD st.ZZ B (A : ℤ)))
    (e_ref - 2 * st.Z A)

/-- Pure replay of the reference-singles cell value. -/
def cisMixedValP (n : ℕ) (cyclic : Bool) (st : HamState) (A : ℕ) : ℚ :=
  (pairsOf n cyclic A).foldl
    (fun acc B => acc + 1 / 2 * (mreadD st.XZ (A : ℤ) B + mreadD st.ZX B (A : ℤ)))
    (st.X A)

/-- Pure replay of `cisDiagLoop`. -/
def cisDiagLoopP (n : ℕ) (cyclic : Bool) (st : HamState) (e_ref : ℚ)
    (M : ℕ → ℕ → ℚ) : ℕ → ℕ → ℚ :=
  (List.range n).foldl
    (fun M A => upd2 M (A + 1, A + 1) (cisDiagValP n cyclic st e_ref A)) M

/-- Pure replay of `cisMixedLoop`. -/
def cisMixedLoopP (n : ℕ) (cyclic : Bool) (st : HamState)
    (M : ℕ → ℕ → ℚ) : ℕ → ℕ → ℚ :=
  (List.range n).foldl
    (fun M A => upd2 (upd2 M (A + 1, 0) (cisMixedValP n cyclic st A))
      (0, A + 1) (cisMixedValP n cyclic st A)) M

/-- Pure replay of `cisSinglesLoop`. -/
def cisSinglesLoopP (n : ℕ) (cyclic : Bool) (st : HamState)
    (M : ℕ → ℕ → ℚ) : ℕ → ℕ → ℚ :=
  (List.range n).foldl
    (fun M A =>
      (pairsOf n cyclic A).foldl
        (fun M B => upd2 M (A + 1, B.toNat + 1) (mreadD st.XX (A : ℤ) B)) M)
    M

/-- Pure replay of `buildCIS`. -/
def buildCISP (normF : Vec3 → ℚ) (d : ChromoData) (a2b d2au : ℚ)
    (n : ℕ) (cyclic : Bool) : ℕ → ℕ → ℚ :=
  cisSinglesLoopP n cyclic (hamLoopP normF d a2b d2au n cyclic)
    (cisMixedLoopP n cyclic (hamLoopP normF d a2b d2au n cyclic)
      (cisDiagLoopP n cyclic (hamLoopP normF d a2b d2au n cyclic)
        (eRef (hamLoopP normF d a2b d2au n cyclic) n)
        (upd2 (fun _ _ => 0) (0, 0) (eRef (hamLoopP normF d a2b d2au n cyclic) n))))

/-! ## The interference stage (`MC_VQE::execute`, source lines 282-333) -/

/-- The ordered pair list traversed by
`for (stateA = 0; stateA < nStates-1; stateA++)
   for (stateB = stateA+1; stateB < nStates; stateB++)`. -/
def interferencePairs (n : ℕ) : List (ℕ × ℕ) :=
  (List.range (n - 1)).flatMap
    (fun a => (List.range' (a + 1) (n - 1 - a)).map (fun b => (a, b)))

/-- The plus (`sign = 1`) / minus (`sign = -1`) interference kernel for
reference states `a`, `b`: state preparation at the angle column
`(col_a ± col_b) / sqrt(2)`, with the entangler's variables added and its
instructions appended.  `angles i s` is `CISGateAngles(i, s)` and `sqrt2`
stands for `std::sqrt(2)`. -/
def interferenceKernel (n : ℕ) (cyclic : Bool) (sqrt2 : ℚ)
    (angles : ℕ → ℕ → ℚ) (sign : ℚ) (a b : ℕ) : List Inst × List String :=
  (statePreparationInsts n (fun i => (angles i a + sign * angles i b) / sqrt2)
     ++ (entanglerCircuitM n cyclic).1,
   (entanglerCircuitM n cyclic).2)

/-- `(plusTerm - minusTerm) / sqrt(2)`: the backend (`vqeWrapper`,
abstracted as the oracle `vqeE`) evaluated on the plus and minus kernels
at the optimized entangler parameters `xopt`. -/
def interValue (vqeE : List Inst × List String → List ℚ → ℚ)
    (n : ℕ) (cyclic : Bool) (sqrt2 : ℚ) (angles : ℕ → ℕ → ℚ)
    (xopt : List ℚ) (a b : ℕ) : ℚ :=
  (vqeE (interferenceKernel n cyclic sqrt2 angles 1 a b) xopt
    - vqeE (interferenceKernel n cyclic sqrt2 angles (-1) a b) xopt) / sqrt2

/-- One iteration of the pair loop: write `(plus - minus)/sqrt2` to cell
`(a, b)`, then copy that cell to `(b, a)` (lines 328-331). -/
def interStep (val : ℕ → ℕ → ℚ) (M : ℕ → ℕ → ℚ) (p : ℕ × ℕ) : ℕ → ℕ → ℚ :=
  let M1 := upd2 M (p.1, p.2) (val p.1 p.2)
  upd2 M1 (p.2, p.1) (M1 p.1 p.2)

/-- The full interference pair loop, updating the entangled-Hamiltonian
matrix `M` (whose diagonal was filled during optimization). -/
def interferenceLoop (vqeE : List Inst × List String → List ℚ → ℚ)
    (n : ℕ) (cyclic : Bool) (sqrt2 : ℚ) (angles : ℕ → ℕ → ℚ)
    (xopt : List ℚ) (M : ℕ → ℕ → ℚ) : ℕ → ℕ → ℚ :=
  (interferencePairs n).foldl
    (interStep (interValue vqeE n cyclic sqrt2 angles xopt)) M

/-! # Theorems -/

/-! ## Generic lemmas about single-cell write folds -/

theorem applyW_cons (M : ℕ → ℕ → ℚ) (w : (ℕ × ℕ) × ℚ) (ws : List ((ℕ × ℕ) × ℚ)) :
    applyW M (w :: ws) = applyW (upd2 M w.1 w.2) ws := rfl

theorem applyW_append (M : ℕ → ℕ → ℚ) (ws1 ws2 : List ((ℕ × ℕ) × ℚ)) :
    applyW M (ws1 ++ ws2) = applyW (applyW M ws1) ws2 :=
  List.foldl_append _ _ _ _

theorem upd2_same (M : ℕ → ℕ → ℚ) (p : ℕ × ℕ) (v : ℚ) :
    upd2 M p v p.1 p.2 = v := by
  simp [upd2]

theorem upd2_other (M : ℕ → ℕ → ℚ) (p : ℕ × ℕ) (v : ℚ) (i j : ℕ)
    (h : p ≠ (i, j)) : upd2 M p v i j = M i j := by
  rw [upd2, if_neg]
  intro hc
  exact h (by rw [hc.1, hc.2])

theorem applyW_miss (ws : List ((ℕ × ℕ) × ℚ)) (M : ℕ → ℕ → ℚ) (i j : ℕ)
    (h : ∀ w ∈ ws, w.1 ≠ (i, j)) : applyW M ws i j = M i j := by
  induction ws generalizing M with
  | nil => rfl
  | cons w ws ih =>
      rw [applyW_cons, ih (upd2 M w.1 w.2) (fun w' hw' => h w' (List.mem_cons_of_mem _ hw')),
        upd2_other M w.1 w.2 i j (h w (List.mem_cons_self _ _))]

theorem applyW_hit (ws : List ((ℕ × ℕ) × ℚ)) (M : ℕ → ℕ → ℚ) (i j : ℕ) (v : ℚ)
    (hex : ∃ w ∈ ws, w.1 = (i, j)) (hval : ∀ w ∈ ws, w.1 = (i, j) → w.2 = v) :
    applyW M ws i j = v := by
  induction ws generalizing M with
  | nil => simp at hex
  | cons w ws ih =>
      rw [applyW_cons]
      by_cases hm : ∃ w' ∈ ws, w'.1 = (i, j)
      · exact ih _ hm (fun w' hw' => hval w' (List.mem_cons_of_mem _ hw'))
      · have hw : w.1 = (i, j) := by
          rcases hex with ⟨w', hw', h1⟩
          rcases List.mem_cons.mp hw' with h | h
          · rw [← h]; exact h1
          · exact absurd ⟨w', h, h1⟩ hm
        rw [applyW_miss ws _ i j (fun w' hw' hc => hm ⟨w', hw', hc⟩)]
        have hval2 : upd2 M w.1 w.2 i j = w.2 := by
          rw [hw]; exact upd2_same M (i, j) w.2
        rw [hval2]
        exact hval w (List.mem_cons_self _ _) hw

/-! ## Generic lemmas about folds of `min` -/

theorem foldl_min_le_init (l : List ℚ) (a : ℚ) : l.foldl min a ≤ a := by
  induction l generalizing a with
  | nil => exact le_refl a
  | cons x l ih => exact le_trans (ih (min a x)) (min_le_left a x)

theorem foldl_min_mem (l : List ℚ) (a : ℚ) :
    l.foldl min a = a ∨ l.foldl min a ∈ l := by
  induction l generalizing a with
  | nil => exact Or.inl rfl
  | cons x l ih =>
      rw [List.foldl_cons]
      rcases ih (min a x) with h | h
      · rcases min_choice a x with hc | hc
        · exact Or.inl (h.trans hc)
        · exact Or.inr (by rw [h, hc]; exact List.mem_cons_self _ _)
      · exact Or.inr (List.mem_cons_of_mem _ h)

/-! ## C2: neighbor topology well-formedness -/

/-- C2: the claim says every neighbor index placed in `pairs` lies in
`0..N-1` and that in the non-cyclic case the end sites couple only to
their single adjacent neighbor.  The code violates both parts: for `N = 2`
non-cyclic, `pairs[0]` contains the out-of-range index `-1` (so not every
index satisfies `0 ≤ B`), and `pairs[N-1]` contains the wrap-around
neighbor `0`. -/
theorem c2_nonCyclic_pairs_out_of_range :
    (-1 : ℤ) ∈ pairsOf 2 false 0 ∧ (0 : ℤ) ∈ pairsOf 2 false 1 ∧
      ¬(∀ B ∈ pairsOf 2 false 0, 0 ≤ B) := by decide

/-! ## C6: entangler trainable-parameter count -/

/-- C6 counterexample: the claim asserts `N + 2*(2 blocks)*4 = 20`
trainable parameters for `N = 4` sites with linear topology; the entangler
registers only `16` (the two brick-wall layers hold `2` and `1` blocks,
not `2` and `2`). -/
theorem c6_counterexample :
    (entanglerCircuitM 4 false).2.length = 16 ∧
      ¬((entanglerCircuitM 4 false).2.length = 4 + 2 * 2 * 4) := by decide

/-- C6 amended: for `N = 4` linear topology the entangler exposes exactly
`N + (2 + 1) * 4 = 16` trainable parameters (layer 0 contributes 2 blocks,
layer 1 contributes 1 block, 4 parameters each), and cyclic topology adds
exactly one extra block of 4 parameters. -/
theorem c6_entangler_param_count :
    (entanglerCircuitM 4 false).2.length = 4 + (2 + 1) * 4 ∧
      (entanglerCircuitM 4 true).2.length = (entanglerCircuitM 4 false).2.length + 4 := by
  decide

/-! ## C8: configuration-error handling -/

/-- C8: a missing required option does make `initialize` fail before any
circuit work (third conjunct), but an unopenable data file is *not*
reported: `std::ifstream`'s failed open sets `failbit` only, so the
`file.bad()` guard is `false` and `preProcessing` falls through to the
`getline`/`stod` parsing loop, contradicting the claim that parsing never
proceeds on an unopenable file. -/
theorem c8_file_guard_reaches_parsing :
    preprocFileGuard StreamState.openFailed = PreprocOutcome.reachedParsing ∧
      ¬(preprocFileGuard StreamState.openFailed = PreprocOutcome.fatalConfigError) ∧
      initRequiredChecks ⟨true, true, true, false⟩ = false := by decide

/-! ## C9: circuit-construction determinism -/

/-- C9: both circuit builders are pure functions of their documented
inputs: any two `MC_VQE` objects agreeing on `nChromophores` (and, for the
entangler, `isCyclic`) produce identical instruction sequences and
identical variable lists, whatever their other members are. -/
theorem c9_circuit_builders_no_hidden_state (st1 st2 : MCVQE)
    (hn : st1.nChromophores = st2.nChromophores)
    (hc : st1.isCyclic = st2.isCyclic) :
    (∀ angles : ℕ → ℚ, st1.statePrepCircuit angles = st2.statePrepCircuit angles) ∧
      st1.entangler = st2.entangler := by
  constructor
  · intro angles
    unfold MCVQE.statePrepCircuit
    rw [hn]
  · unfold MCVQE.entangler
    rw [hn, hc]

/-- C9 witness: two objects differing in `nStates`, `logLevel`,
`tnqvmLog` and `dataPath` build the same entangler. -/
theorem c9_witness :
    MCVQE.entangler ⟨3, 4, false, 0, false, "a"⟩ =
      MCVQE.entangler ⟨3, 7, false, 5, true, "b"⟩ :=
  (c9_circuit_builders_no_hidden_state _ _ rfl rfl).2

/-! ## C10: implicit gradient-output effect -/

theorem accumulateAvgGrad_none (nStates : ℕ) (x dx : List ℚ) :
    accumulateAvgGrad none nStates x dx = List.replicate x.length 0 := by
  unfold accumulateAvgGrad
  generalize List.range nStates = l
  generalize List.replicate x.length (0 : ℚ) = s
  induction l generalizing s with
  | nil => rfl
  | cons a l ih => exact ih s

/-- C10: with no gradient strategy configured and a non-empty parameter
vector `x`, the objective still overwrites the optimizer's gradient output
`dx`, setting it to the zero vector of length `|x|` (the zero-initialized
`averageGrad` accumulator is assigned to `dx` merely because it is
non-empty). -/
theorem c10_dx_zeroed_without_gradient_strategy (nStates : ℕ) (x dx : List ℚ)
    (hx : x ≠ []) :
    objectiveGradOut none nStates x dx = List.replicate x.length 0 := by
  unfold objectiveGradOut
  rw [accumulateAvgGrad_none]
  have hne : (List.replicate x.length (0 : ℚ)).isEmpty = false := by
    cases x with
    | nil => exact absurd rfl hx
    | cons a t => rfl
  rw [hne]
  simp

/-- C10 witness: a two-parameter call with no gradient strategy turns
`dx = [5, 7]` into `[0, 0]`. -/
theorem c10_witness :
    objectiveGradOut none 3 [1, 2] [5, 7] = List.replicate 2 0 :=
  c10_dx_zeroed_without_gradient_strategy 3 [1, 2] [5, 7] (by decide)

/-! ## C1: best-so-far diagonal policy -/

theorem objectiveCall_eq (nS : ℕ) (es : List ℚ) (o : ℚ) (d : List ℚ) :
    objectiveCall nS es ⟨o, d⟩ =
      if avgE nS es < o then ⟨avgE nS es, es⟩ else ⟨o, d⟩ := rfl

/-- Characterization of a run of objective calls from an arbitrary
starting state: `oldAverageEnergy` ends at the minimum of its initial
value and all call averages, and the diagonal ends at the per-state
energies of the first call attaining that minimum, provided the minimum
strictly improves on the initial value. -/
theorem objectiveCall_run (nS : ℕ) (calls : List (List ℚ)) (o : ℚ) (d : List ℚ) :
    calls.foldl (fun st es => objectiveCall nS es st) ⟨o, d⟩ =
      ⟨(calls.map (avgE nS)).foldl min o,
       if (calls.map (avgE nS)).foldl min o < o then
         (calls.find? (fun es =>
           avgE nS es ≤ (calls.map (avgE nS)).foldl min o)).getD d
       else d⟩ := by
  induction calls generalizing o d with
  | nil => simp
  | cons c cs ih =>
      rw [List.foldl_cons, List.map_cons, List.foldl_cons, objectiveCall_eq]
      by_cases h : avgE nS c < o
      · rw [if_pos h, ih]
        have hmin : min o (avgE nS c) = avgE nS c := min_eq_right h.le
        rw [hmin]
        have hle : (cs.map (avgE nS)).foldl min (avgE nS c) ≤ avgE nS c :=
          foldl_min_le_init _ _
        have hlt : (cs.map (avgE nS)).foldl min (avgE nS c) < o :=
          lt_of_le_of_lt hle h
        rw [if_pos hlt]
        congr 1
        by_cases h2 : (cs.map (avgE nS)).foldl min (avgE nS c) < avgE nS c
        · rw [if_pos h2, List.find?_cons_of_neg _ (by simp [not_le.mpr h2])]
          have hsome : (cs.find? (fun es =>
              avgE nS es ≤ (cs.map (avgE nS)).foldl min (avgE nS c))).isSome := by
            rcases foldl_min_mem (cs.map (avgE nS)) (avgE nS c) with hm | hm
            · exact absurd hm (ne_of_lt h2)
            · rcases List.mem_map.mp hm with ⟨es, hes, hval⟩
              rw [List.find?_isSome]
              exact ⟨es, hes, by simp [hval.le]⟩
          obtain ⟨y, hy⟩ := Option.isSome_iff_exists.mp hsome
          rw [hy]
          rfl
        · rw [if_neg h2]
          have heq : (cs.map (avgE nS)).foldl min (avgE nS c) = avgE nS c :=
            le_antisymm hle (not_lt.mp h2)
          rw [List.find?_cons_of_pos _ (by simp [heq.ge])]
          rfl
      · rw [if_neg h, ih]
        have hmin : min o (avgE nS c) = o := min_eq_left (not_lt.mp h)
        rw [hmin]
        congr 1
        by_cases h2 : (cs.map (avgE nS)).foldl min o < o
        · rw [if_pos h2, if_pos h2,
            List.find?_cons_of_neg _
              (by simp [not_le.mpr (lt_of_lt_of_le h2 (not_lt.mp h))])]
        · rw [if_neg h2, if_neg h2]

/-- C1 counterexample: `oldAverageEnergy` is initialized to `0.0`, so a
first (and only, hence lowest-average) call whose average is non-negative
never records its snapshot: with one state and one call of per-state
energies `[1]`, the diagonal stays `[0]` instead of the claimed `[1]`. -/
theorem c1_counterexample :
    (runObjective 1 [[1]]).diagonal = [0] ∧
      ¬((runObjective 1 [[1]]).diagonal = [1]) := by
  norm_num [runObjective, objectiveCall, avgE]

/-- C1 amended: the diagonal is overwritten at a call exactly when its
average is strictly below the minimum of `0` (the initial
`oldAverageEnergy`) and all prior averages; consequently after any
sequence of calls `oldAverageEnergy` equals `min 0 (all averages)`, and
the diagonal equals the per-state energies of the first call attaining
that minimum when the minimum is negative, and stays the zero vector
otherwise. -/
theorem c1_best_so_far_policy (nS : ℕ) (calls : List (List ℚ)) :
    (runObjective nS calls).oldAverageEnergy = minAvg nS calls ∧
      (runObjective nS calls).diagonal =
        (if minAvg nS calls < 0 then
          (calls.find? (fun es => avgE nS es ≤ minAvg nS calls)).getD
            (List.replicate nS 0)
        else List.replicate nS 0) := by
  rw [runObjective, objectiveCall_run nS calls 0 (List.replicate nS 0)]
  exact ⟨rfl, rfl⟩

/-! ## C5: angle-encoder definition -/

theorem pairEq {α β : Type} {a c : α} {b d : β} (h : (a, b) = (c, d)) :
    a = c ∧ b = d := by
  injection h with h1 h2
  exact ⟨h1, h2⟩

/-- Closed form of a column-filling fold: writing value `v angle` at cell
`(angle, s)` for every `angle` in `L`. -/
theorem columnFold_at (v : ℕ → ℚ) (s : ℕ) (L : List ℕ) :
    ∀ (G : ℕ → ℕ → ℚ) (k s' : ℕ),
      (L.foldl (fun G angle => upd2 G (angle, s) (v angle)) G) k s' =
        if k ∈ L ∧ s' = s then v k else G k s' := by
  induction L with
  | nil => intro G k s'; simp
  | cons a L ih =>
      intro G k s'
      rw [List.foldl_cons, ih]
      by_cases h1 : k ∈ L ∧ s' = s
      · rw [if_pos h1, if_pos (⟨List.mem_cons_of_mem a h1.1, h1.2⟩ : k ∈ a :: L ∧ s' = s)]
      · rw [if_neg h1]
        by_cases h2 : k = a ∧ s' = s
        · rw [if_pos (⟨by rw [h2.1]; exact List.mem_cons_self a L, h2.2⟩ : k ∈ a :: L ∧ s' = s)]
          have hv : upd2 G (a, s) (v a) k s' = v a := by
            rw [h2.1, h2.2]; exact upd2_same G (a, s) (v a)
          rw [hv, h2.1]
        · rw [if_neg (fun hc : k ∈ a :: L ∧ s' = s => by
            rcases List.mem_cons.mp hc.1 with h | h
            · exact h2 ⟨h, hc.2⟩
            · exact h1 ⟨h, hc.2⟩)]
          exact upd2_other G (a, s) (v a) k s'
            (fun hc => h2 ⟨(pairEq hc).1.symm, (pairEq hc).2.symm⟩)

/-- Effect of one outer-loop iteration of `statePreparationAngles` on an
arbitrary cell: column `s0` is filled with `angleVal`, all other cells are
untouched. -/
theorem stateAnglesBody_at (acosF : ℚ → ℚ) (vnormF : List ℚ → ℚ)
    (C : ℕ → ℕ → ℚ) (n nS : ℕ) (hn : 0 < n) (G : ℕ → ℕ → ℚ) (s0 k s : ℕ) :
    stateAnglesBody acosF vnormF C n nS G s0 k s =
      if k < n ∧ s = s0 then angleVal acosF vnormF C n nS k s0 else G k s := by
  rw [stateAnglesBody, angleVal]
  by_cases hC : C (nS - 1) s0 < 0
  · rw [if_pos hC]
    by_cases h2 : k = n - 1 ∧ s = s0
    · have hu : upd2
          ((List.range n).foldl (fun G angle => upd2 G (angle, s0)
            (acosF (C angle s0 / vnormF (colSegment C s0 angle n)))) G)
          (n - 1, s0) (((List.range n).foldl (fun G angle => upd2 G (angle, s0)
            (acosF (C angle s0 / vnormF (colSegment C s0 angle n)))) G) (n - 1) s0 * (-1))
          k s = ((List.range n).foldl (fun G angle => upd2 G (angle, s0)
            (acosF (C angle s0 / vnormF (colSegment C s0 angle n)))) G) (n - 1) s0 * (-1) := by
        rw [h2.1, h2.2]
        exact upd2_same _ _ _
      rw [hu, columnFold_at,
        if_pos (⟨List.mem_range.mpr (by omega), rfl⟩ : n - 1 ∈ List.range n ∧ s0 = s0),
        if_pos (⟨by omega, h2.2⟩ : k < n ∧ s = s0),
        if_pos (⟨h2.1, hC⟩ : k = n - 1 ∧ C (nS - 1) s0 < 0), h2.1]
    · rw [upd2_other _ _ _ _ _
          (fun hc => h2 ⟨(pairEq hc).1.symm, (pairEq hc).2.symm⟩),
        columnFold_at]
      by_cases h1 : k < n ∧ s = s0
      · rw [if_pos (⟨List.mem_range.mpr h1.1, h1.2⟩ : k ∈ List.range n ∧ s = s0),
          if_pos h1, if_neg (fun hc : k = n - 1 ∧ C (nS - 1) s0 < 0 => h2 ⟨hc.1, h1.2⟩)]
      · rw [if_neg (fun hc : k ∈ List.range n ∧ s = s0 =>
            h1 ⟨List.mem_range.mp hc.1, hc.2⟩), if_neg h1]
  · rw [if_neg hC, columnFold_at]
    by_cases h1 : k < n ∧ s = s0
    · rw [if_pos (⟨List.mem_range.mpr h1.1, h1.2⟩ : k ∈ List.range n ∧ s = s0),
        if_pos h1, if_neg (fun hc : k = n - 1 ∧ C (nS - 1) s0 < 0 => hC hc.2)]
    · rw [if_neg (fun hc : k ∈ List.range n ∧ s = s0 =>
          h1 ⟨List.mem_range.mp hc.1, hc.2⟩), if_neg h1]

/-- Closed form of the whole outer loop of `statePreparationAngles`: each
column of the zero-initialized matrix is set independently. -/
theorem statePrepAngles_fold (acosF : ℚ → ℚ) (vnormF : List ℚ → ℚ)
    (C : ℕ → ℕ → ℚ) (n nS : ℕ) (hn : 0 < n) (L : List ℕ) :
    ∀ (G : ℕ → ℕ → ℚ) (k s : ℕ),
      (L.foldl (stateAnglesBody acosF vnormF C n nS) G) k s =
        if s ∈ L ∧ k < n then angleVal acosF vnormF C n nS k s else G k s := by
  induction L with
  | nil => intro G k s; simp
  | cons s0 L ih =>
      intro G k s
      rw [List.foldl_cons, ih]
      by_cases h1 : s ∈ L ∧ k < n
      · rw [if_pos h1, if_pos (⟨List.mem_cons_of_mem s0 h1.1, h1.2⟩ : s ∈ s0 :: L ∧ k < n)]
      · rw [if_neg h1, stateAnglesBody_at acosF vnormF C n nS hn]
        by_cases h2 : k < n ∧ s = s0
        · rw [if_pos h2,
            if_pos (⟨by rw [h2.2]; exact List.mem_cons_self s0 L, h2.1⟩ :
              s ∈ s0 :: L ∧ k < n), h2.2]
        · rw [if_neg h2,
            if_neg (fun hc : s ∈ s0 :: L ∧ k < n => by
              rcases List.mem_cons.mp hc.1 with h | h
              · exact h2 ⟨hc.2, h⟩
              · exact h1 ⟨h, hc.2⟩)]

/-- C5: for every column `s` of the `nStates × nStates` eigenvector matrix
(`nStates = nChromophores + 1`) and every angle index `k < nChromophores`,
the encoder sets
`gateAngles(k, s) = acos(C(k, s) / norm(column-s entries k..end))`,
negating the last angle (`k = nChromophores - 1`) exactly when the
column's final coefficient `C(nStates - 1, s)` is negative. -/
theorem c5_angle_encoder (acosF : ℚ → ℚ) (vnormF : List ℚ → ℚ)
    (C : ℕ → ℕ → ℚ) (n k s : ℕ) (hk : k < n) (hs : s < n + 1) :
    statePrepAngles acosF vnormF C n (n + 1) k s =
      (if k = n - 1 ∧ C n s < 0 then -1 else 1) *
        acosF (C k s / vnormF (colSegment C s k n)) := by
  rw [statePrepAngles, statePrepAngles_fold acosF vnormF C n (n + 1) (by omega),
    if_pos (⟨List.mem_range.mpr hs, hk⟩ : s ∈ List.range (n + 1) ∧ k < n), angleVal]
  have hlast : n + 1 - 1 = n := rfl
  rw [hlast]
  by_cases h : k = n - 1 ∧ C n s < 0
  · rw [if_pos h, if_pos h]; ring
  · rw [if_neg h, if_neg h]; ring

/-- C5 witness: concrete instantiation at `n = 2`, column `2`, angle
index `1`, with identity stand-ins for `acos` and the norm. -/
theorem c5_witness :
    statePrepAngles (fun q => q) (fun l => l.sum) (fun i j => (i : ℚ) + j) 2 (2 + 1) 1 2 =
      (if 1 = 2 - 1 ∧ ((2 : ℚ) + 2) < 0 then -1 else 1) *
        ((1 + 2 : ℚ) / (colSegment (fun i j => (i : ℚ) + j) 2 1 2).sum) :=
  c5_angle_encoder (fun q => q) (fun l => l.sum) (fun i j => (i : ℚ) + j) 2 1 2
    (by decide) (by decide)

/-! ## C7: degenerate-geometry handling, and the C3 counterexample -/

/-- C7: preprocessing applies `twoBodyH` with no zero-distance check.  For
two coupled sites with coincident centers of mass (here `N = 2`, cyclic,
both `com` rows zero) the build completes without any error outcome
(`isSome`), even though the inter-site distance is `0` and the coupling
formula divides by zero — `twoBodyHChecked`, which models the IEEE result
of that division as `none`, flags exactly this input.  The claimed
detection and fatal report do not exist in the code. -/
theorem c7_division_by_zero_not_detected :
    twoBodyHChecked l1normV (1, 0, 0) (1, 0, 0) (subV zeroV zeroV) = none ∧
      (buildCIS l1normV
        ⟨[0, 0], [0, 0], [zeroV, zeroV], [zeroV, zeroV],
         [(1, 0, 0), (1, 0, 0)], [zeroV, zeroV]⟩ 1 1 2 true).isSome = true := by
  exact ⟨by norm_num [twoBodyHChecked, l1normV, subV, zeroV], rfl⟩

/-- C3 counterexample: for a non-cyclic instance (here `N = 2`, all data
zero) the builder performs an out-of-range Eigen row read (`pairs[0]`
contains `-1`, claim C2), modelled as `none`: no well-defined reference
matrix is produced at all, so the claimed symmetry fails for the
non-cyclic half of "for both values of the topology flag". -/
theorem c3_counterexample :
    buildCIS l1normV
      ⟨[0, 0], [0, 0], [zeroV, zeroV], [zeroV, zeroV], [zeroV, zeroV], [zeroV, zeroV]⟩
      1 1 2 false = none := rfl

/-! ## C4: interference stage postcondition -/

theorem interferencePairs_mem (n a b : ℕ) :
    (a, b) ∈ interferencePairs n ↔ a < b ∧ b < n := by
  rw [interferencePairs]
  simp only [List.mem_flatMap, List.mem_map, List.mem_range, List.mem_range'_1,
    Prod.mk.injEq]
  constructor
  · rintro ⟨x, hx, y, hy, hxy1, hxy2⟩
    omega
  · intro h
    exact ⟨a, by omega, b, ⟨by omega, by omega⟩, rfl, rfl⟩

theorem interferencePairs_lt (n : ℕ) (p : ℕ × ℕ) (hp : p ∈ interferencePairs n) :
    p.1 < p.2 ∧ p.2 < n := by
  obtain ⟨p1, p2⟩ := p
  exact (interferencePairs_mem n p1 p2).mp hp

/-- Any list member has a last occurrence. -/
theorem mem_split_last {α : Type} (x : α) (L : List α) (h : x ∈ L) :
    ∃ L1 L2, L = L1 ++ x :: L2 ∧ x ∉ L2 := by
  induction L with
  | nil => cases h
  | cons y L ih =>
      by_cases hx : x ∈ L
      · obtain ⟨L1, L2, hL, hn⟩ := ih hx
        exact ⟨y :: L1, L2, by rw [hL]; rfl, hn⟩
      · have hxy : x = y := (List.mem_cons.mp h).resolve_right hx
        exact ⟨[], L, by rw [hxy]; rfl, hx⟩

/-- A cell not of the form `(p.1, p.2)` or `(p.2, p.1)` for any traversed
pair is untouched by the pair loop. -/
theorem interFold_untouched (val : ℕ → ℕ → ℚ) (L : List (ℕ × ℕ)) (i j : ℕ)
    (h : ∀ p ∈ L, ¬(p.1 = i ∧ p.2 = j) ∧ ¬(p.2 = i ∧ p.1 = j)) :
    ∀ M : ℕ → ℕ → ℚ, (L.foldl (interStep val) M) i j = M i j := by
  induction L with
  | nil => intro M; rfl
  | cons p L ih =>
      intro M
      rw [List.foldl_cons, ih (fun q hq => h q (List.mem_cons_of_mem _ hq))]
      have h1 := (h p (List.mem_cons_self _ _)).1
      have h2 := (h p (List.mem_cons_self _ _)).2
      rw [interStep]
      rw [upd2_other _ _ _ _ _ (fun hc => h2 ⟨(pairEq hc).1, (pairEq hc).2⟩),
        upd2_other _ _ _ _ _ (fun hc => h1 ⟨(pairEq hc).1, (pairEq hc).2⟩)]


/-- Effect of one pair iteration on its own two cells. -/
theorem interStep_at (val : ℕ → ℕ → ℚ) (M : ℕ → ℕ → ℚ) (a b : ℕ) (hab : a ≠ b) :
    interStep val M (a, b) a b = val a b ∧ interStep val M (a, b) b a = val a b := by
  simp only [interStep]
  constructor
  · rw [upd2_other _ _ _ _ _ (fun hc => hab ((pairEq hc).2))]
    exact upd2_same M (a, b) _
  · have h1 : upd2 (upd2 M (a, b) (val a b)) (b, a)
        (upd2 M (a, b) (val a b) a b) b a = upd2 M (a, b) (val a b) a b :=
      upd2_same _ (b, a) _
    rw [h1]
    exact upd2_same M (a, b) _

/-- Once the pair `(a, b)` has been processed (taking its last occurrence),
both cells `(a, b)` and `(b, a)` hold `val a b`; later pairs, all strictly
increasing and different from `(a, b)`, leave them alone. -/
theorem interFold_hit (val : ℕ → ℕ → ℚ) (L : List (ℕ × ℕ)) (a b : ℕ)
    (hab : a < b) (hL : ∀ p ∈ L, p.1 < p.2) (hmem : (a, b) ∈ L) :
    ∀ M : ℕ → ℕ → ℚ,
      (L.foldl (interStep val) M) a b = val a b ∧
        (L.foldl (interStep val) M) b a = val a b := by
  obtain ⟨L1, L2, hLsplit, hnot⟩ := mem_split_last (a, b) L hmem
  intro M
  rw [hLsplit, List.foldl_append, List.foldl_cons]
  have hL2 : ∀ p ∈ L2, p.1 < p.2 := fun p hp =>
    hL p (by rw [hLsplit]; exact List.mem_append_right _ (List.mem_cons_of_mem _ hp))
  have hpair : ∀ p : ℕ × ℕ, p ∈ L2 → p ≠ (a, b) := fun p hp hc => hnot (hc ▸ hp)
  have huAB : ∀ p ∈ L2, ¬(p.1 = a ∧ p.2 = b) ∧ ¬(p.2 = a ∧ p.1 = b) := by
    intro p hp
    refine ⟨fun hc => hpair p hp (Prod.ext hc.1 hc.2), fun hc => ?_⟩
    have := hL2 p hp
    omega
  have huBA : ∀ p ∈ L2, ¬(p.1 = b ∧ p.2 = a) ∧ ¬(p.2 = b ∧ p.1 = a) := by
    intro p hp
    refine ⟨fun hc => ?_, fun hc => hpair p hp (Prod.ext hc.2 hc.1)⟩
    have := hL2 p hp
    omega
  constructor
  · rw [interFold_untouched val L2 a b huAB]
    exact (interStep_at val _ a b (by omega)).1
  · rw [interFold_untouched val L2 b a huBA]
    exact (interStep_at val _ a b (by omega)).2

/-- C4: after the interference pair loop, for every pair `a < b < nStates`
both entries `(a, b)` and `(b, a)` of the entangled Hamiltonian equal
`(plusTerm - minusTerm)/sqrt2`, the backend expectation values on the
state-preparation circuits built from `(angles_a ± angles_b)/sqrt2` with
the entangler appended; and the whole matrix is symmetric whenever the
incoming (diagonal-only) matrix is. -/
theorem c4_interference_postcondition
    (vqeE : List Inst × List String → List ℚ → ℚ) (n : ℕ) (cyclic : Bool)
    (sqrt2 : ℚ) (angles : ℕ → ℕ → ℚ) (xopt : List ℚ) (M0 : ℕ → ℕ → ℚ)
    (a b : ℕ) (hab : a < b) (hbn : b < n)
    (hsymm : ∀ i j, M0 i j = M0 j i) :
    interferenceLoop vqeE n cyclic sqrt2 angles xopt M0 a b =
        interValue vqeE n cyclic sqrt2 angles xopt a b ∧
      interferenceLoop vqeE n cyclic sqrt2 angles xopt M0 b a =
        interValue vqeE n cyclic sqrt2 angles xopt a b ∧
      ∀ i j, interferenceLoop vqeE n cyclic sqrt2 angles xopt M0 i j =
        interferenceLoop vqeE n cyclic sqrt2 angles xopt M0 j i := by
  have hL : ∀ p ∈ interferencePairs n, p.1 < p.2 := fun p hp =>
    (interferencePairs_lt n p hp).1
  have hmain := interFold_hit (interValue vqeE n cyclic sqrt2 angles xopt)
    (interferencePairs n) a b hab hL
    ((interferencePairs_mem n a b).mpr ⟨hab, hbn⟩) M0
  refine ⟨hmain.1, hmain.2, fun i j => ?_⟩
  rcases Nat.lt_trichotomy i j with hij | hij | hij
  · by_cases hjn : j < n
    · have h1 := interFold_hit (interValue vqeE n cyclic sqrt2 angles xopt)
        (interferencePairs n) i j hij hL
        ((interferencePairs_mem n i j).mpr ⟨hij, hjn⟩) M0
      rw [interferenceLoop] at *
      rw [h1.1, h1.2]
    · have hu1 : ∀ p ∈ interferencePairs n,
          ¬(p.1 = i ∧ p.2 = j) ∧ ¬(p.2 = i ∧ p.1 = j) := by
        intro p hp
        have := interferencePairs_lt n p hp
        omega
      have hu2 : ∀ p ∈ interferencePairs n,
          ¬(p.1 = j ∧ p.2 = i) ∧ ¬(p.2 = j ∧ p.1 = i) := by
        intro p hp
        have := interferencePairs_lt n p hp
        omega
      rw [interferenceLoop, interFold_untouched _ _ i j hu1,
        interFold_untouched _ _ j i hu2]
      exact hsymm i j
  · rw [hij]
  · by_cases hin : i < n
    · have h1 := interFold_hit (interValue vqeE n cyclic sqrt2 angles xopt)
        (interferencePairs n) j i hij hL
        ((interferencePairs_mem n j i).mpr ⟨hij, hin⟩) M0
      rw [interferenceLoop] at *
      rw [h1.1, h1.2]
    · have hu1 : ∀ p ∈ interferencePairs n,
          ¬(p.1 = i ∧ p.2 = j) ∧ ¬(p.2 = i ∧ p.1 = j) := by
        intro p hp
        have := interferencePairs_lt n p hp
        omega
      have hu2 : ∀ p ∈ interferencePairs n,
          ¬(p.1 = j ∧ p.2 = i) ∧ ¬(p.2 = j ∧ p.1 = i) := by
        intro p hp
        have := interferencePairs_lt n p hp
        omega
      rw [interferenceLoop, interFold_untouched _ _ i j hu1,
        interFold_untouched _ _ j i hu2]
      exact hsymm i j

/-- C4 witness: concrete two-state instance with a length-counting oracle
and zero-initialized matrix. -/
theorem c4_witness :
    interferenceLoop (fun k x => (k.1.length : ℚ) + (x.length : ℚ)) 2 false 1
        (fun i s => (i : ℚ) + s) [] (fun _ _ => 0) 0 1 =
      interValue (fun k x => (k.1.length : ℚ) + (x.length : ℚ)) 2 false 1
        (fun i s => (i : ℚ) + s) [] 0 1 :=
  (c4_interference_postcondition (fun k x => (k.1.length : ℚ) + (x.length : ℚ))
    2 false 1 (fun i s => (i : ℚ) + s) [] (fun _ _ => 0) 0 1
    (by decide) (by decide) (fun i j => rfl)).1

/-! ## C3: symmetry of the CIS reference matrix (cyclic topology) -/

/-- With `cyclic = true` the branch conditions lose their Boolean
conjunct. -/
theorem pairsOf_true (n A : ℕ) :
    pairsOf n true A =
      if A = 0 then [(A : ℤ) + 1, (n : ℤ) - 1]
      else if A = n - 1 then [(A : ℤ) - 1, 0]
      else [(A : ℤ) - 1, (A : ℤ) + 1] := by
  rw [pairsOf]
  by_cases h : A = 0
  · simp [h]
  · simp [h]

theorem pairsOf_cyclic_mem_range (n : ℕ) (hn : 2 ≤ n) (A : ℕ) (hA : A < n) :
    ∀ B ∈ pairsOf n true A, 0 ≤ B ∧ B < (n : ℤ) := by
  intro B hB
  rw [pairsOf_true] at hB
  split_ifs at hB with h1 h2 <;>
    simp only [List.mem_cons, List.not_mem_nil, or_false] at hB <;>
      rcases hB with h | h <;> omega

theorem pairsOf_cyclic_symm (n : ℕ) (hn : 2 ≤ n) (A B : ℕ) (hA : A < n) (hB : B < n)
    (h : (B : ℤ) ∈ pairsOf n true A) : (A : ℤ) ∈ pairsOf n true B := by
  rw [pairsOf_true] at h ⊢
  split_ifs at h ⊢ <;>
    simp only [List.mem_cons, List.not_mem_nil, or_false] at h ⊢ <;> omega

/-- A monadic fold whose body always succeeds computes the pure fold. -/
theorem foldlM_eq_foldl {α σ : Type} (f : σ → α → Option σ) (g : σ → α → σ)
    (l : List α) (h : ∀ s, ∀ a ∈ l, f s a = some (g s a)) :
    ∀ s, l.foldlM f s = some (l.foldl g s) := by
  induction l with
  | nil => intro s; rfl
  | cons a l ih =>
      intro s
      rw [List.foldlM_cons, h s a (List.mem_cons_self _ _)]
      exact ih (fun s' a' ha' => h s' a' (List.mem_cons_of_mem _ ha')) (g s a)

theorem row?_eq_some (l : List Vec3) (i : ℤ) (h0 : 0 ≤ i) (hl : i < (l.length : ℤ)) :
    row? l i = some (rowD l i) := by
  rw [row?, if_pos ⟨h0, hl⟩]

theorem dipoleSumRow?_eq (d : ChromoData) (d2au : ℚ) (n : ℕ) (i : ℤ)
    (hGS : d.dipoleGS.length = n) (hES : d.dipoleES.length = n)
    (h0 : 0 ≤ i) (hi : i < (n : ℤ)) :
    dipoleSumRow? d d2au i = some (dipoleSumRowD d d2au i) := by
  rw [dipoleSumRow?,
    row?_eq_some _ _ h0 (by simp [dipoleGSs, hGS]; exact_mod_cast hi),
    row?_eq_some _ _ h0 (by simp [dipoleESs, hES]; exact_mod_cast hi)]
  rfl

theorem dipoleDiffRow?_eq (d : ChromoData) (d2au : ℚ) (n : ℕ) (i : ℤ)
    (hGS : d.dipoleGS.length = n) (hES : d.dipoleES.length = n)
    (h0 : 0 ≤ i) (hi : i < (n : ℤ)) :
    dipoleDiffRow? d d2au i = some (dipoleDiffRowD d d2au i) := by
  rw [dipoleDiffRow?,
    row?_eq_some _ _ h0 (by simp [dipoleGSs, hGS]; exact_mod_cast hi),
    row?_eq_some _ _ h0 (by simp [dipoleESs, hES]; exact_mod_cast hi)]
  rfl

theorem dipoleTRow?_eq (d : ChromoData) (n : ℕ) (i : ℤ)
    (hT : d.dipoleT.length = n) (h0 : 0 ≤ i) (hi : i < (n : ℤ)) :
    dipoleTRow? d i = some (dipoleTRowD d i) := by
  rw [dipoleTRow?, row?_eq_some _ _ h0 (by rw [hT]; exact hi)]
  rfl

theorem comRow?_eq (d : ChromoData) (a2b : ℚ) (n : ℕ) (i : ℤ)
    (hCom : d.com.length = n) (h0 : 0 ≤ i) (hi : i < (n : ℤ)) :
    comRow? d a2b i = some (comRowD d a2b i) := by
  rw [comRow?, row?_eq_some _ _ h0 (by simp [comS, hCom]; exact_mod_cast hi)]
  rfl

theorem hamBody_eq_some (normF : Vec3 → ℚ) (d : ChromoData) (a2b d2au : ℚ) (n : ℕ)
    (hGS : d.dipoleGS.length = n) (hES : d.dipoleES.length = n)
    (hT : d.dipoleT.length = n) (hCom : d.com.length = n)
    (st : HamState) (A : ℕ) (hA : A < n) (B : ℤ) (hB0 : 0 ≤ B) (hBn : B < (n : ℤ)) :
    hamBody normF d a2b d2au st A B = some (hamBodyP normF d a2b d2au st A B) := by
  have hA0 : (0 : ℤ) ≤ (A : ℤ) := Int.ofNat_nonneg A
  have hAn : (A : ℤ) < (n : ℤ) := by exact_mod_cast hA
  rw [hamBody,
    dipoleSumRow?_eq d d2au n _ hGS hES hA0 hAn,
    dipoleSumRow?_eq d d2au n _ hGS hES hB0 hBn,
    dipoleDiffRow?_eq d d2au n _ hGS hES hA0 hAn,
    dipoleDiffRow?_eq d d2au n _ hGS hES hB0 hBn,
    dipoleTRow?_eq d n _ hT hA0 hAn,
    dipoleTRow?_eq d n _ hT hB0 hBn,
    comRow?_eq d a2b n _ hCom hA0 hAn,
    comRow?_eq d a2b n _ hCom hB0 hBn]
  rfl

theorem hamLoop_eq_some (normF : Vec3 → ℚ) (d : ChromoData) (a2b d2au : ℚ) (n : ℕ)
    (hn : 2 ≤ n)
    (hGS : d.dipoleGS.length = n) (hES : d.dipoleES.length = n)
    (hT : d.dipoleT.length = n) (hCom : d.com.length = n) :
    hamLoop normF d a2b d2au n true = some (hamLoopP normF d a2b d2au n true) := by
  rw [hamLoop, hamLoopP]
  apply foldlM_eq_foldl
  intro st A hA
  apply foldlM_eq_foldl
  intro st' B hB
  have hr := pairsOf_cyclic_mem_range n hn A (List.mem_range.mp hA) B hB
  exact hamBody_eq_some normF d a2b d2au n hGS hES hT hCom st' A
    (List.mem_range.mp hA) B hr.1 hr.2

theorem mread?_eq (n : ℕ) (M : ℕ → ℕ → ℚ) (i j : ℤ)
    (hi0 : 0 ≤ i) (hin : i < (n : ℤ)) (hj0 : 0 ≤ j) (hjn : j < (n : ℤ)) :
    mread? n M i j = some (mreadD M i j) := by
  rw [mread?, if_pos ⟨hi0, hin, hj0, hjn⟩]
  rfl

theorem cisDiagLoop_eq (n : ℕ) (hn : 2 ≤ n) (st : HamState) (e : ℚ) (M : ℕ → ℕ → ℚ) :
    cisDiagLoop n true st e M = some (cisDiagLoopP n true st e M) := by
  rw [cisDiagLoop, cisDiagLoopP]
  apply foldlM_eq_foldl
  intro M' A hA
  have hAn := List.mem_range.mp hA
  have hinner := foldlM_eq_foldl
    (fun acc B => do
      let zzAB ← mread? n st.ZZ (A : ℤ) B
      let zzBA ← mread? n st.ZZ B (A : ℤ)
      pure (acc - (zzAB + zzBA)))
    (fun acc B => acc - (mreadD st.ZZ (A : ℤ) B + mreadD st.ZZ B (A : ℤ)))
    (pairsOf n true A)
    (fun acc B hB => by
      have hr := pairsOf_cyclic_mem_range n hn A hAn B hB
      simp only [mread?_eq n st.ZZ (A : ℤ) B (Int.ofNat_nonneg A)
          (by exact_mod_cast hAn) hr.1 hr.2,
        mread?_eq n st.ZZ B (A : ℤ) hr.1 hr.2 (Int.ofNat_nonneg A)
          (by exact_mod_cast hAn)]
      rfl)
    (e - 2 * st.Z A)
  rw [cisDiagValP, hinner]
  rfl

theorem cisMixedLoop_eq (n : ℕ) (hn : 2 ≤ n) (st : HamState) (M : ℕ → ℕ → ℚ) :
    cisMixedLoop n true st M = some (cisMixedLoopP n true st M) := by
  rw [cisMixedLoop, cisMixedLoopP]
  apply foldlM_eq_foldl
  intro M' A hA
  have hAn := List.mem_range.mp hA
  have hinner := foldlM_eq_foldl
    (fun acc B => do
      let xzAB ← mread? n st.XZ (A : ℤ) B
      let zxBA ← mread? n st.ZX B (A : ℤ)
      pure (acc + 1 / 2 * (xzAB + zxBA)))
    (fun acc B => acc + 1 / 2 * (mreadD st.XZ (A : ℤ) B + mreadD st.ZX B (A : ℤ)))
    (pairsOf n true A)
    (fun acc B hB => by
      have hr := pairsOf_cyclic_mem_range n hn A hAn B hB
      simp only [mread?_eq n st.XZ (A : ℤ) B (Int.ofNat_nonneg A)
          (by exact_mod_cast hAn) hr.1 hr.2,
        mread?_eq n st.ZX B (A : ℤ) hr.1 hr.2 (Int.ofNat_nonneg A)
          (by exact_mod_cast hAn)]
      rfl)
    (st.X A)
  rw [cisMixedValP, hinner]
  rfl

theorem cisSinglesLoop_eq (n : ℕ) (hn : 2 ≤ n) (st : HamState) (M : ℕ → ℕ → ℚ) :
    cisSinglesLoop n true st M = some (cisSinglesLoopP n true st M) := by
  rw [cisSinglesLoop, cisSinglesLoopP]
  apply foldlM_eq_foldl
  intro M' A hA
  have hAn := List.mem_range.mp hA
  apply foldlM_eq_foldl
  intro M'' B hB
  have hr := pairsOf_cyclic_mem_range n hn A hAn B hB
  rw [mread?_eq n st.XX (A : ℤ) B (Int.ofNat_nonneg A) (by exact_mod_cast hAn) hr.1 hr.2]
  rfl

/-- Success of the whole CIS build for cyclic topology. -/
theorem buildCIS_eq_some (normF : Vec3 → ℚ) (d : ChromoData) (a2b d2au : ℚ) (n : ℕ)
    (hn : 2 ≤ n)
    (hGS : d.dipoleGS.length = n) (hES : d.dipoleES.length = n)
    (hT : d.dipoleT.length = n) (hCom : d.com.length = n) :
    buildCIS normF d a2b d2au n true = some (buildCISP normF d a2b d2au n true) := by
  rw [buildCIS, hamLoop_eq_some normF d a2b d2au n hn hGS hES hT hCom]
  show (do
    let M2 ← cisDiagLoop n true (hamLoopP normF d a2b d2au n true)
      (eRef (hamLoopP normF d a2b d2au n true) n)
      (upd2 (fun _ _ => 0) (0, 0) (eRef (hamLoopP normF d a2b d2au n true) n))
    let M3 ← cisMixedLoop n true (hamLoopP normF d a2b d2au n true) M2
    cisSinglesLoop n true (hamLoopP normF d a2b d2au n true) M3) =
    some (buildCISP normF d a2b d2au n true)
  rw [cisDiagLoop_eq n hn]
  show (do
    let M3 ← cisMixedLoop n true (hamLoopP normF d a2b d2au n true)
      (cisDiagLoopP n true (hamLoopP normF d a2b d2au n true)
        (eRef (hamLoopP normF d a2b d2au n true) n)
        (upd2 (fun _ _ => 0) (0, 0) (eRef (hamLoopP normF d a2b d2au n true) n)))
    cisSinglesLoop n true (hamLoopP normF d a2b d2au n true) M3) =
    some (buildCISP normF d a2b d2au n true)
  rw [cisMixedLoop_eq n hn]
  show cisSinglesLoop n true (hamLoopP normF d a2b d2au n true)
      (cisMixedLoopP n true (hamLoopP normF d a2b d2au n true)
        (cisDiagLoopP n true (hamLoopP normF d a2b d2au n true)
          (eRef (hamLoopP normF d a2b d2au n true) n)
          (upd2 (fun _ _ => 0) (0, 0) (eRef (hamLoopP normF d a2b d2au n true) n)))) =
    some (buildCISP normF d a2b d2au n true)
  rw [cisSinglesLoop_eq n hn, buildCISP]

/-- A nested fold over per-`a` lists equals a fold over the flattened
pair list. -/
theorem foldl_flatMap_pairs {α β σ : Type} (l : List α) (g : α → List β)
    (F : σ → α → β → σ) :
    ∀ s, l.foldl (fun s a => (g a).foldl (fun s b => F s a b) s) s =
      (l.flatMap (fun a => (g a).map (fun b => (a, b)))).foldl
        (fun s p => F s p.1 p.2) s := by
  induction l with
  | nil => intro s; rfl
  | cons a l ih =>
      intro s
      rw [List.foldl_cons, List.flatMap_cons, List.foldl_append, List.foldl_map, ih]

theorem flatPairs_mem (n : ℕ) (cyc : Bool) (A : ℕ) (B : ℤ) :
    (A, B) ∈ (List.range n).flatMap (fun A => (pairsOf n cyc A).map (fun B => (A, B))) ↔
      A < n ∧ B ∈ pairsOf n cyc A := by
  simp [List.mem_flatMap, List.mem_map, List.mem_range, Prod.mk.injEq]

/-- The `XX` component of the pure Hamiltonian fold is the write list of
`xxVal`s applied to the zero matrix. -/
theorem hamFold_XX (normF : Vec3 → ℚ) (d : ChromoData) (a2b d2au : ℚ)
    (flat : List (ℕ × ℤ)) :
    ∀ st : HamState,
      (flat.foldl (fun st p => hamBodyP normF d a2b d2au st p.1 p.2) st).XX =
        applyW st.XX (flat.map (fun p =>
          ((p.1, p.2.toNat), xxVal normF d a2b (p.1 : ℤ) p.2))) := by
  induction flat with
  | nil => intro st; rfl
  | cons p flat ih =>
      intro st
      rw [List.foldl_cons, List.map_cons, applyW_cons, ih]
      rfl

/-- Final value of `XX_AB(A0, B0)` after the (cyclic) Hamiltonian loop. -/
theorem hamLoopP_XX (normF : Vec3 → ℚ) (d : ChromoData) (a2b d2au : ℚ) (n : ℕ)
    (hn : 2 ≤ n) (A0 B0 : ℕ) (hA0 : A0 < n) (hB0 : B0 < n) :
    (hamLoopP normF d a2b d2au n true).XX A0 B0 =
      if (B0 : ℤ) ∈ pairsOf n true A0 then xxVal normF d a2b (A0 : ℤ) (B0 : ℤ)
      else 0 := by
  have h1 : hamLoopP normF d a2b d2au n true =
      ((List.range n).flatMap (fun A => (pairsOf n true A).map (fun B => (A, B)))).foldl
        (fun st p => hamBodyP normF d a2b d2au st p.1 p.2) (hamInit d) := by
    rw [hamLoopP]
    exact foldl_flatMap_pairs (List.range n) (pairsOf n true)
      (fun st A B => hamBodyP normF d a2b d2au st A B) (hamInit d)
  rw [h1, hamFold_XX]
  by_cases hmem : (B0 : ℤ) ∈ pairsOf n true A0
  · rw [if_pos hmem]
    apply applyW_hit
    · refine ⟨((A0, B0), xxVal normF d a2b (A0 : ℤ) (B0 : ℤ)), ?_, rfl⟩
      rw [List.mem_map]
      refine ⟨(A0, (B0 : ℤ)), (flatPairs_mem n true A0 (B0 : ℤ)).mpr ⟨hA0, hmem⟩, ?_⟩
      simp
    · rintro w hw hkey
      rw [List.mem_map] at hw
      obtain ⟨p, hp, hwp⟩ := hw
      obtain ⟨A, B⟩ := p
      rw [flatPairs_mem n true A B] at hp
      have hr := pairsOf_cyclic_mem_range n hn A hp.1 B hp.2
      rw [← hwp] at hkey ⊢
      have hA : A = A0 := (pairEq hkey).1
      have hBt : B.toNat = B0 := (pairEq hkey).2
      have hB : B = (B0 : ℤ) := by omega
      simp only [hA, hB]
  · rw [if_neg hmem]
    rw [applyW_miss]
    · rfl
    · rintro w hw hkey
      rw [List.mem_map] at hw
      obtain ⟨p, hp, hwp⟩ := hw
      obtain ⟨A, B⟩ := p
      rw [flatPairs_mem n true A B] at hp
      have hr := pairsOf_cyclic_mem_range n hn A hp.1 B hp.2
      rw [← hwp] at hkey
      have hA : A = A0 := (pairEq hkey).1
      have hB : B = (B0 : ℤ) := by
        have := (pairEq hkey).2
        omega
      apply hmem
      rw [← hA, ← hB]
      exact hp.2

/-- `twoBodyH` is symmetric under exchanging the two dipoles and negating
the displacement, for any even norm function. -/
theorem twoBodyH_swap (normF : Vec3 → ℚ) (muA muB r : Vec3)
    (heven : normF (negV r) = normF r) :
    twoBodyH normF muB muA (negV r) = twoBodyH normF muA muB r := by
  simp only [twoBodyH, heven]
  obtain ⟨r1, r2, r3⟩ := r
  obtain ⟨a1, a2, a3⟩ := muA
  obtain ⟨b1, b2, b3⟩ := muB
  simp only [dotV, smulV, negV]
  ring_nf

theorem subV_neg (x y : Vec3) : subV y x = negV (subV x y) := by
  rw [subV, subV, negV]
  refine Prod.ext (by ring) (Prod.ext (by ring) (by ring))

/-- Symmetry of the `XX` coefficient under site exchange. -/
theorem xxVal_symm (normF : Vec3 → ℚ) (d : ChromoData) (a2b : ℚ)
    (heven : ∀ v : Vec3, normF (negV v) = normF v) (A B : ℤ) :
    xxVal normF d a2b B A = xxVal normF d a2b A B := by
  rw [xxVal, xxVal,
    subV_neg (comRowD d a2b A) (comRowD d a2b B)]
  exact twoBodyH_swap normF (dipoleTRowD d A) (dipoleTRowD d B)
    (subV (comRowD d a2b A) (comRowD d a2b B)) (heven _)

theorem foldl_upd2_map {α : Type} (key : α → ℕ × ℕ) (v : α → ℚ) (L : List α) :
    ∀ M : ℕ → ℕ → ℚ, L.foldl (fun M a => upd2 M (key a) (v a)) M =
      applyW M (L.map (fun a => (key a, v a))) := by
  induction L with
  | nil => intro M; rfl
  | cons a L ih =>
      intro M
      rw [List.foldl_cons, List.map_cons, applyW_cons, ih]

/-- Closed form of a diagonal-writing fold. -/
theorem diagFold_at (v : ℕ → ℚ) (L : List ℕ) :
    ∀ (M : ℕ → ℕ → ℚ) (i j : ℕ),
      (L.foldl (fun M A => upd2 M (A + 1, A + 1) (v A)) M) i j =
        if i = j ∧ 1 ≤ i ∧ i - 1 ∈ L then v (i - 1) else M i j := by
  induction L with
  | nil => intro M i j; simp
  | cons a L ih =>
      intro M i j
      rw [List.foldl_cons, ih]
      by_cases h1 : i = j ∧ 1 ≤ i ∧ i - 1 ∈ L
      · rw [if_pos h1, if_pos ⟨h1.1, h1.2.1, List.mem_cons_of_mem _ h1.2.2⟩]
      · rw [if_neg h1]
        by_cases h2 : i = j ∧ i = a + 1
        · rw [if_pos ⟨h2.1, by omega, by rw [h2.2]; simp⟩]
          have hj : j = a + 1 := h2.1 ▸ h2.2
          have hv : upd2 M (a + 1, a + 1) (v a) i j = v a := by
            rw [h2.2, hj]
            exact upd2_same M (a + 1, a + 1) (v a)
          rw [hv, h2.2]
          congr 1
        · have hneg : ¬(i = j ∧ 1 ≤ i ∧ i - 1 ∈ a :: L) := by
            intro hc
            rcases List.mem_cons.mp hc.2.2 with h | h
            · exact h2 ⟨hc.1, by omega⟩
            · exact h1 ⟨hc.1, hc.2.1, h⟩
          rw [if_neg hneg]
          exact upd2_other M (a + 1, a + 1) (v a) i j
            (fun hc => h2 ⟨(pairEq hc).1.symm.trans (pairEq hc).2, (pairEq hc).1.symm⟩)

/-- Closed form of the reference-singles fold (two mirror writes per
iteration). -/
theorem mixedFold_at (v : ℕ → ℚ) (L : List ℕ) :
    ∀ (M : ℕ → ℕ → ℚ) (i j : ℕ),
      (L.foldl (fun M A => upd2 (upd2 M (A + 1, 0) (v A)) (0, A + 1) (v A)) M) i j =
        if j = 0 ∧ 1 ≤ i ∧ i - 1 ∈ L then v (i - 1)
        else if i = 0 ∧ 1 ≤ j ∧ j - 1 ∈ L then v (j - 1)
        else M i j := by
  induction L with
  | nil => intro M i j; simp
  | cons a L ih =>
      intro M i j
      rw [List.foldl_cons, ih]
      by_cases h1 : j = 0 ∧ 1 ≤ i ∧ i - 1 ∈ L
      · rw [if_pos h1, if_pos ⟨h1.1, h1.2.1, List.mem_cons_of_mem _ h1.2.2⟩]
      · rw [if_neg h1]
        by_cases h2 : i = 0 ∧ 1 ≤ j ∧ j - 1 ∈ L
        · rw [if_pos h2]
          have hrn : ¬(j = 0 ∧ 1 ≤ i ∧ i - 1 ∈ a :: L) := by
            intro hc
            omega
          rw [if_neg hrn, if_pos ⟨h2.1, h2.2.1, List.mem_cons_of_mem _ h2.2.2⟩]
        · rw [if_neg h2]
          by_cases h3 : j = 0 ∧ i = a + 1
          · have hv : upd2 (upd2 M (a + 1, 0) (v a)) (0, a + 1) (v a) i j = v a := by
              rw [upd2_other _ _ _ _ _ (fun hc => by
                have := (pairEq hc).1
                omega)]
              rw [h3.2, h3.1]
              exact upd2_same M (a + 1, 0) (v a)
            rw [hv, if_pos ⟨h3.1, by omega, by rw [h3.2]; simp⟩, h3.2]
            congr 1
          · by_cases h4 : i = 0 ∧ j = a + 1
            · have hv : upd2 (upd2 M (a + 1, 0) (v a)) (0, a + 1) (v a) i j = v a := by
                rw [h4.1, h4.2]
                exact upd2_same _ (0, a + 1) (v a)
              have hrn : ¬(j = 0 ∧ 1 ≤ i ∧ i - 1 ∈ a :: L) := by
                intro hc
                omega
              rw [hv, if_neg hrn,
                if_pos ⟨h4.1, by omega, by rw [h4.2]; simp⟩, h4.2]
              congr 1
            · have huntouched :
                  upd2 (upd2 M (a + 1, 0) (v a)) (0, a + 1) (v a) i j = M i j := by
                rw [upd2_other _ _ _ _ _ (fun hc =>
                    h4 ⟨(pairEq hc).1.symm, (pairEq hc).2.symm⟩),
                  upd2_other _ _ _ _ _ (fun hc =>
                    h3 ⟨(pairEq hc).2.symm, (pairEq hc).1.symm⟩)]
              have hrn1 : ¬(j = 0 ∧ 1 ≤ i ∧ i - 1 ∈ a :: L) := by
                intro hc
                rcases List.mem_cons.mp hc.2.2 with h | h
                · exact h3 ⟨hc.1, by omega⟩
                · exact h1 ⟨hc.1, hc.2.1, h⟩
              have hrn2 : ¬(i = 0 ∧ 1 ≤ j ∧ j - 1 ∈ a :: L) := by
                intro hc
                rcases List.mem_cons.mp hc.2.2 with h | h
                · exact h4 ⟨hc.1, by omega⟩
                · exact h2 ⟨hc.1, hc.2.1, h⟩
              rw [huntouched, if_neg hrn1, if_neg hrn2]

theorem cisDiagLoopP_at (n : ℕ) (cyc : Bool) (st : HamState) (e : ℚ)
    (M : ℕ → ℕ → ℚ) (i j : ℕ) :
    cisDiagLoopP n cyc st e M i j =
      if i = j ∧ 1 ≤ i ∧ i - 1 ∈ List.range n then cisDiagValP n cyc st e (i - 1)
      else M i j := by
  rw [cisDiagLoopP]
  exact diagFold_at (cisDiagValP n cyc st e) (List.range n) M i j

theorem cisMixedLoopP_at (n : ℕ) (cyc : Bool) (st : HamState)
    (M : ℕ → ℕ → ℚ) (i j : ℕ) :
    cisMixedLoopP n cyc st M i j =
      if j = 0 ∧ 1 ≤ i ∧ i - 1 ∈ List.range n then cisMixedValP n cyc st (i - 1)
      else if i = 0 ∧ 1 ≤ j ∧ j - 1 ∈ List.range n then cisMixedValP n cyc st (j - 1)
      else M i j := by
  rw [cisMixedLoopP]
  exact mixedFold_at (cisMixedValP n cyc st) (List.range n) M i j

theorem cisSinglesLoopP_at (n : ℕ) (hn : 2 ≤ n) (st : HamState) (M : ℕ → ℕ → ℚ)
    (i j : ℕ) :
    cisSinglesLoopP n true st M i j =
      if 1 ≤ i ∧ i ≤ n ∧ 1 ≤ j ∧ ((j - 1 : ℕ) : ℤ) ∈ pairsOf n true (i - 1) then
        st.XX (i - 1) (j - 1)
      else M i j := by
  have h1 : cisSinglesLoopP n true st M =
      ((List.range n).flatMap (fun A => (pairsOf n true A).map (fun B => (A, B)))).foldl
        (fun M p => upd2 M (p.1 + 1, p.2.toNat + 1) (mreadD st.XX (p.1 : ℤ) p.2)) M := by
    rw [cisSinglesLoopP]
    exact foldl_flatMap_pairs (List.range n) (pairsOf n true)
      (fun M A B => upd2 M (A + 1, B.toNat + 1) (mreadD st.XX (A : ℤ) B)) M
  have h2 : ((List.range n).flatMap (fun A => (pairsOf n true A).map (fun B => (A, B)))).foldl
        (fun M p => upd2 M (p.1 + 1, p.2.toNat + 1) (mreadD st.XX (p.1 : ℤ) p.2)) M =
      applyW M (((List.range n).flatMap
          (fun A => (pairsOf n true A).map (fun B => (A, B)))).map
        (fun p : ℕ × ℤ => ((p.1 + 1, p.2.toNat + 1), mreadD st.XX (p.1 : ℤ) p.2))) :=
    foldl_upd2_map (fun p : ℕ × ℤ => (p.1 + 1, p.2.toNat + 1))
      (fun p : ℕ × ℤ => mreadD st.XX (p.1 : ℤ) p.2) _ M
  rw [h1, h2]
  by_cases hc : 1 ≤ i ∧ i ≤ n ∧ 1 ≤ j ∧ ((j - 1 : ℕ) : ℤ) ∈ pairsOf n true (i - 1)
  · rw [if_pos hc]
    apply applyW_hit
    · refine ⟨(((i - 1) + 1, (((j - 1 : ℕ) : ℤ)).toNat + 1),
        mreadD st.XX ((i - 1 : ℕ) : ℤ) ((j - 1 : ℕ) : ℤ)), ?_, ?_⟩
      · rw [List.mem_map]
        exact ⟨(i - 1, ((j - 1 : ℕ) : ℤ)),
          (flatPairs_mem n true _ _).mpr ⟨by omega, hc.2.2.2⟩, rfl⟩
      · exact Prod.ext (show (i - 1) + 1 = i by omega)
          (show (((j - 1 : ℕ) : ℤ)).toNat + 1 = j by omega)
    · rintro w hw hkey
      rw [List.mem_map] at hw
      obtain ⟨p, hp, hwp⟩ := hw
      obtain ⟨A, B⟩ := p
      rw [flatPairs_mem n true A B] at hp
      have hr := pairsOf_cyclic_mem_range n hn A hp.1 B hp.2
      rw [← hwp] at hkey ⊢
      have hA : A + 1 = i := (pairEq hkey).1
      have hBt : B.toNat + 1 = j := (pairEq hkey).2
      have hA2 : A = i - 1 := by omega
      have hB2 : B = ((j - 1 : ℕ) : ℤ) := by omega
      rw [hA2, hB2]
      rfl
  · rw [if_neg hc]
    apply applyW_miss
    rintro w hw
    rw [List.mem_map] at hw
    obtain ⟨p, hp, hwp⟩ := hw
    obtain ⟨A, B⟩ := p
    rw [flatPairs_mem n true A B] at hp
    have hr := pairsOf_cyclic_mem_range n hn A hp.1 B hp.2
    rw [← hwp]
    intro hkey
    have hA : A + 1 = i := (pairEq hkey).1
    have hBt : B.toNat + 1 = j := (pairEq hkey).2
    apply hc
    refine ⟨by omega, by omega, by omega, ?_⟩
    have hA2 : A = i - 1 := by omega
    have hB2 : B = ((j - 1 : ℕ) : ℤ) := by omega
    rw [← hA2, ← hB2]
    exact hp.2

/-- Symmetry of the final `XX` coefficients for cyclic topology. -/
theorem hamLoopP_XX_symm (normF : Vec3 → ℚ) (d : ChromoData) (a2b d2au : ℚ) (n : ℕ)
    (hn : 2 ≤ n) (heven : ∀ v : Vec3, normF (negV v) = normF v)
    (a b : ℕ) (ha : a < n) (hb : b < n) :
    (hamLoopP normF d a2b d2au n true).XX a b =
      (hamLoopP normF d a2b d2au n true).XX b a := by
  rw [hamLoopP_XX normF d a2b d2au n hn a b ha hb,
    hamLoopP_XX normF d a2b d2au n hn b a hb ha]
  by_cases hm : (b : ℤ) ∈ pairsOf n true a
  · rw [if_pos hm, if_pos (pairsOf_cyclic_symm n hn a b ha hb hm)]
    exact xxVal_symm normF d a2b heven (b : ℤ) (a : ℤ)
  · rw [if_neg hm, if_neg (fun hc => hm (pairsOf_cyclic_symm n hn b a hb ha hc))]

/-- C3 amended: for cyclic topology (any data of the right lengths, any
even norm), preprocessing succeeds and the CIS reference matrix it builds
is symmetric on all of its `nStates × nStates = (n+1) × (n+1)` cells;
for non-cyclic topology the builder reads Eigen row `-1` and no
well-defined matrix exists (`c3_counterexample`). -/
theorem c3_cis_matrix_symmetric (normF : Vec3 → ℚ) (d : ChromoData) (a2b d2au : ℚ)
    (n : ℕ) (hn : 2 ≤ n)
    (hGS : d.dipoleGS.length = n) (hES : d.dipoleES.length = n)
    (hT : d.dipoleT.length = n) (hCom : d.com.length = n)
    (heven : ∀ v : Vec3, normF (negV v) = normF v) :
    ∃ M, buildCIS normF d a2b d2au n true = some M ∧
      ∀ i j, i < n + 1 → j < n + 1 → M i j = M j i := by
  refine ⟨buildCISP normF d a2b d2au n true,
    buildCIS_eq_some normF d a2b d2au n hn hGS hES hT hCom, ?_⟩
  intro i j hi hj
  by_cases hij : i = j
  · rw [hij]
  rw [buildCISP]
  rw [cisSinglesLoopP_at n hn, cisSinglesLoopP_at n hn]
  by_cases hi0 : i = 0
  · have hj1 : 1 ≤ j := by omega
    have hsn1 : ¬(1 ≤ i ∧ i ≤ n ∧ 1 ≤ j ∧
        ((j - 1 : ℕ) : ℤ) ∈ pairsOf n true (i - 1)) :=
      fun hc => absurd hc.1 (by omega)
    have hsn2 : ¬(1 ≤ j ∧ j ≤ n ∧ 1 ≤ i ∧
        ((i - 1 : ℕ) : ℤ) ∈ pairsOf n true (j - 1)) :=
      fun hc => absurd hc.2.2.1 (by omega)
    rw [if_neg hsn1, if_neg hsn2, cisMixedLoopP_at, cisMixedLoopP_at]
    have hm1 : ¬(j = 0 ∧ 1 ≤ i ∧ i - 1 ∈ List.range n) :=
      fun hc => absurd hc.1 (by omega)
    have hm2 : i = 0 ∧ 1 ≤ j ∧ j - 1 ∈ List.range n :=
      ⟨hi0, hj1, List.mem_range.mpr (by omega)⟩
    rw [if_neg hm1, if_pos hm2, if_pos hm2]
  · by_cases hj0 : j = 0
    · have hi1 : 1 ≤ i := by omega
      have hsn1 : ¬(1 ≤ i ∧ i ≤ n ∧ 1 ≤ j ∧
          ((j - 1 : ℕ) : ℤ) ∈ pairsOf n true (i - 1)) :=
        fun hc => absurd hc.2.2.1 (by omega)
      have hsn2 : ¬(1 ≤ j ∧ j ≤ n ∧ 1 ≤ i ∧
          ((i - 1 : ℕ) : ℤ) ∈ pairsOf n true (j - 1)) :=
        fun hc => absurd hc.1 (by omega)
      rw [if_neg hsn1, if_neg hsn2, cisMixedLoopP_at, cisMixedLoopP_at]
      have hm1 : j = 0 ∧ 1 ≤ i ∧ i - 1 ∈ List.range n :=
        ⟨hj0, hi1, List.mem_range.mpr (by omega)⟩
      have hm2 : ¬(i = 0 ∧ 1 ≤ j ∧ j - 1 ∈ List.range n) :=
        fun hc => absurd hc.1 (by omega)
      rw [if_pos hm1, if_neg hm2, if_pos hm1]
    · by_cases hp : ((j - 1 : ℕ) : ℤ) ∈ pairsOf n true (i - 1)
      · have hp2 : ((i - 1 : ℕ) : ℤ) ∈ pairsOf n true (j - 1) :=
          pairsOf_cyclic_symm n hn (i - 1) (j - 1) (by omega) (by omega) hp
        rw [if_pos (⟨by omega, by omega, by omega, hp⟩ :
            1 ≤ i ∧ i ≤ n ∧ 1 ≤ j ∧ ((j - 1 : ℕ) : ℤ) ∈ pairsOf n true (i - 1)),
          if_pos (⟨by omega, by omega, by omega, hp2⟩ :
            1 ≤ j ∧ j ≤ n ∧ 1 ≤ i ∧ ((i - 1 : ℕ) : ℤ) ∈ pairsOf n true (j - 1))]
        exact hamLoopP_XX_symm normF d a2b d2au n hn heven (i - 1) (j - 1)
          (by omega) (by omega)
      · have hp2 : ¬(((i - 1 : ℕ) : ℤ) ∈ pairsOf n true (j - 1)) := fun hc =>
          hp (pairsOf_cyclic_symm n hn (j - 1) (i - 1) (by omega) (by omega) hc)
        have hsn1 : ¬(1 ≤ i ∧ i ≤ n ∧ 1 ≤ j ∧
            ((j - 1 : ℕ) : ℤ) ∈ pairsOf n true (i - 1)) := fun hc => hp hc.2.2.2
        have hsn2 : ¬(1 ≤ j ∧ j ≤ n ∧ 1 ≤ i ∧
            ((i - 1 : ℕ) : ℤ) ∈ pairsOf n true (j - 1)) := fun hc => hp2 hc.2.2.2
        rw [if_neg hsn1, if_neg hsn2, cisMixedLoopP_at, cisMixedLoopP_at]
        have hm1 : ¬(j = 0 ∧ 1 ≤ i ∧ i - 1 ∈ List.range n) :=
          fun hc => absurd hc.1 (by omega)
        have hm2 : ¬(i = 0 ∧ 1 ≤ j ∧ j - 1 ∈ List.range n) :=
          fun hc => absurd hc.1 (by omega)
        rw [if_neg hm1, if_neg hm2, if_neg hm2, if_neg hm1,
          cisDiagLoopP_at, cisDiagLoopP_at]
        have hd1 : ¬(i = j ∧ 1 ≤ i ∧ i - 1 ∈ List.range n) :=
          fun hc => absurd hc.1 hij
        have hd2 : ¬(j = i ∧ 1 ≤ j ∧ j - 1 ∈ List.range n) :=
          fun hc => absurd hc.1 (fun h => hij h.symm)
        rw [if_neg hd1, if_neg hd2]
        rw [upd2_other _ _ _ _ _ (fun hc => absurd (pairEq hc).1 (by omega)),
          upd2_other _ _ _ _ _ (fun hc => absurd (pairEq hc).1 (by omega))]

/-- C3 witness: a concrete `N = 2` cyclic instance with the L1 norm. -/
theorem c3_witness :
    ∃ M, buildCIS l1normV
        ⟨[1, 2], [3, 1], [(1, 0, 0), (0, 1, 0)], [(0, 0, 1), (1, 1, 0)],
         [(1, 2, 3), (0, 1, 1)], [(0, 0, 0), (1, 2, 2)]⟩ 1 1 2 true = some M ∧
      ∀ i j, i < 2 + 1 → j < 2 + 1 → M i j = M j i :=
  c3_cis_matrix_symmetric l1normV
    ⟨[1, 2], [3, 1], [(1, 0, 0), (0, 1, 0)], [(0, 0, 1), (1, 1, 0)],
     [(1, 2, 3), (0, 1, 1)], [(0, 0, 0), (1, 2, 2)]⟩ 1 1 2 (by decide)
    rfl rfl rfl rfl
    (fun v => by
      obtain ⟨a, b, c⟩ := v
      simp [l1normV, negV, abs_neg])
